import Mathlib

/-!
# Verification of `useQueryParams` (kuroski/use-query-params, src/useQueryParams.ts)

A shallow embedding of the caching / update-orchestration logic of the
`useQueryParams` hook.  JavaScript reference identity is made explicit:
objects (parsed-query maps, encoded/decoded value containers, param config
objects, decoded object values) carry a numeric identity tag, and `Object.is`
on objects is identity-tag comparison.  Fresh allocations are threaded
through an explicit counter, so a decoder is allowed to return a brand new
object on every call, exactly as in JavaScript.

Collaborators that are part of the repository but whose source files are not
under `src/` (`shallowEqual.ts`, `helpers.ts`, `memoizedQueryParser.ts`) and
the external `serialize-query-params` package are modelled from the spec's
contracts; each such definition is marked `Modelled from the spec:` in its
doc comment.  Everything else is translated from `src/useQueryParams.ts`.
-/

/-- A raw encoded query value as carried in a parsed query string:
a string, an array of strings, or absent/undefined.  Strings are JS
primitives (compared by value).  Arrays are compared one level deep,
element-wise; since in JS two reference-identical arrays always have equal
elements, element-wise comparison subsumes the reference fast path, so no
identity tag is needed on arrays. -/
inductive RawValue where
  | str (s : String)
  | arr (elems : List String)
  | undef
deriving DecidableEq, Repr

/-- A decoded JS value produced by a codec: a primitive (compared by value),
an object (compared by reference, i.e. by identity tag), or `undefined`.
Equality of `JSVal` is exactly the `Object.is` comparison JavaScript uses in
shallow-equality checks. -/
inductive JSVal where
  | prim (s : String)
  | obj (id : Nat)
  | undef
deriving DecidableEq, Repr

/-- A JS object holding string-keyed entries, together with its reference
identity tag.  Two `RefMap`s are "the same reference" (`===`) iff they are
equal (in real JS, reference-identical objects trivially agree on content,
so structural equality is a faithful model of `===`). -/
structure RefMap (V : Type) where
  id : Nat
  entries : List (String × V)
deriving DecidableEq, Repr

/-- `l[k]` as an `Option`: the value of the first entry with key `k`. -/
def lookupOpt {V : Type} (l : List (String × V)) (k : String) : Option V :=
  (l.find? (fun p => p.1 == k)).map (fun p => p.2)

/-- Whether key `k` is present. -/
def keyMem {V : Type} (l : List (String × V)) (k : String) : Bool :=
  (lookupOpt l k).isSome

/-- All keys of `a` are present in `b`. -/
def keySub {V W : Type} (a : List (String × V)) (b : List (String × W)) : Bool :=
  a.all (fun p => keyMem b p.1)

/-- Modelled from the spec: `shallowEqual.ts` is not under `src/`.
"Shallow equality: equality defined one level deep — same set of keys, and
each value equal by reference or primitive equality (not recursively)."
`veq` is the `Object.is` comparison for the value type at hand. -/
def shallowEqualEntries {V : Type} (veq : V → V → Bool)
    (a b : List (String × V)) : Bool :=
  keySub a b && keySub b a && a.all (fun p =>
    match lookupOpt a p.1, lookupOpt b p.1 with
    | some va, some vb => veq va vb
    | _, _ => false)

/-- Modelled from the spec: one-level shallow equality on raw encoded values
(the per-parameter comparison at line 95 of the source).  Strings and
`undefined` compare primitively (`Object.is`); arrays compare one level
deep, element-wise.  "Shallow-equality comparisons treat absent/undefined
entries as ordinary values (no special-casing)." -/
def rawShallowEqual : RawValue → RawValue → Bool
  | .str a, .str b => a == b
  | .arr a, .arr b => a == b
  | .undef, .undef => true
  | _, _ => false

theorem rawShallowEqual_iff (a b : RawValue) : rawShallowEqual a b = true ↔ a = b := by
  cases a <;> cases b <;> simp [rawShallowEqual]

theorem lookupOpt_isSome_iff {V : Type} (l : List (String × V)) (k : String) :
    (lookupOpt l k).isSome = true ↔ ∃ p ∈ l, p.1 = k := by
  simp [lookupOpt, List.find?_isSome]

theorem keyMem_iff {V : Type} (l : List (String × V)) (k : String) :
    keyMem l k = true ↔ ∃ p ∈ l, p.1 = k := by
  simp [keyMem, lookupOpt_isSome_iff]

theorem keySub_keyMem {V W : Type} {a : List (String × V)} {b : List (String × W)}
    (h : keySub a b = true) {k : String} (hk : keyMem a k = true) :
    keyMem b k = true := by
  rcases (keyMem_iff a k).mp hk with ⟨p, hp, hpk⟩
  have := (List.all_eq_true.mp h) p hp
  rwa [hpk] at this

/-- Shallow equality of entry lists, with an equality-like value comparison,
is exactly extensional equality of lookups under an observation map `f`
(`f` is the identity for raw/decoded values, and the identity tag for param
configs, which are compared by reference). -/
theorem shallowEqualEntries_iff {V β : Type} [DecidableEq β] (f : V → β)
    (veq : V → V → Bool) (hveq : ∀ x y, veq x y = true ↔ f x = f y)
    (a b : List (String × V)) :
    shallowEqualEntries veq a b = true ↔
      ∀ k, (lookupOpt a k).map f = (lookupOpt b k).map f := by
  unfold shallowEqualEntries
  simp only [Bool.and_eq_true]
  constructor
  · rintro ⟨⟨hab, hba⟩, hall⟩ k
    by_cases hk : keyMem a k = true
    · rcases (keyMem_iff a k).mp hk with ⟨p, hp, hpk⟩
      have hinst := (List.all_eq_true.mp hall) p hp
      rw [hpk] at hinst
      have hbk : keyMem b k = true := keySub_keyMem hab hk
      rcases Option.isSome_iff_exists.mp hk with ⟨va, hva⟩
      rcases Option.isSome_iff_exists.mp hbk with ⟨vb, hvb⟩
      rw [hva, hvb] at hinst
      simp only [hva, hvb, Option.map_some]
      exact congrArg some ((hveq va vb).mp hinst)
    · have hbk : ¬ keyMem b k = true := fun hc => hk (keySub_keyMem hba hc)
      have h1 : lookupOpt a k = none :=
        Option.not_isSome_iff_eq_none.mp (by simpa [keyMem] using hk)
      have h2 : lookupOpt b k = none :=
        Option.not_isSome_iff_eq_none.mp (by simpa [keyMem] using hbk)
      simp [h1, h2]
  · intro h
    refine ⟨⟨?_, ?_⟩, ?_⟩
    · refine List.all_eq_true.mpr (fun p hp => ?_)
      have hak : keyMem a p.1 = true :=
        (keyMem_iff a p.1).mpr ⟨p, hp, rfl⟩
      rcases Option.isSome_iff_exists.mp hak with ⟨va, hva⟩
      have hthis := h p.1
      cases hvb : lookupOpt b p.1 with
      | none => rw [hva, hvb] at hthis; simp at hthis
      | some vb => simp [keyMem, hvb]
    · refine List.all_eq_true.mpr (fun p hp => ?_)
      have hbk : keyMem b p.1 = true :=
        (keyMem_iff b p.1).mpr ⟨p, hp, rfl⟩
      rcases Option.isSome_iff_exists.mp hbk with ⟨vb, hvb⟩
      have hthis := h p.1
      cases hva : lookupOpt a p.1 with
      | none => rw [hva, hvb] at hthis; simp at hthis
      | some va => simp [keyMem, hva]
    · refine List.all_eq_true.mpr (fun p hp => ?_)
      have hak : keyMem a p.1 = true :=
        (keyMem_iff a p.1).mpr ⟨p, hp, rfl⟩
      rcases Option.isSome_iff_exists.mp hak with ⟨va, hva⟩
      have hthis := h p.1
      cases hvb : lookupOpt b p.1 with
      | none => rw [hva, hvb] at hthis; simp at hthis
      | some vb =>
        rw [hva, hvb] at hthis
        simp only [Option.map_some', Option.some.injEq] at hthis
        simp [hva, hvb, (hveq va vb).mpr hthis]

/-- A per-parameter codec, with the config object's reference identity tag.
`decode` takes the raw value and a fresh-allocation counter and may either
fail (a thrown exception) or return the decoded value together with the
advanced counter — so a decoder is free to allocate a brand-new object on
every call, as in JavaScript.  `encode` turns a decoded value back into a
raw string-ish value. -/
structure QueryParamConfig where
  id : Nat
  decode : RawValue → Nat → Except String (JSVal × Nat)
  encode : JSVal → RawValue

/-- `QueryParamConfigMap`: parameter name to codec. -/
abbrev QueryParamConfigMap := RefMap QueryParamConfig

/-- `EncodedQuery` / encoded-values snapshots: name to raw value. -/
abbrev EncodedQueryMap := RefMap RawValue

/-- Decoded-values containers: name to decoded JS value. -/
abbrev DecodedQueryMap := RefMap JSVal

/-- `Object.is` on two param config objects: reference comparison. -/
def configIs (a b : QueryParamConfig) : Bool := a.id == b.id

/-- `shallowEqual` on two param config maps (used at lines 56-59 and in the
cache-commit guards): one level deep, config objects by reference. -/
def configShallowEqual (a b : QueryParamConfigMap) : Bool :=
  shallowEqualEntries configIs a.entries b.entries

/-- `shallowEqual` on two raw-value maps (parsed query / encoded snapshot):
one level deep. -/
def rawMapShallowEqual (a b : EncodedQueryMap) : Bool :=
  shallowEqualEntries rawShallowEqual a.entries b.entries

/-- `shallowEqual` on two decoded-value maps (line 116): one level deep,
values by `Object.is` (primitive equality / object reference). -/
def decShallowEqual (a b : DecodedQueryMap) : Bool :=
  shallowEqualEntries (fun x y => x == y) a.entries b.entries

/-- JS property read `query[name]` on a raw-value map: `undefined` when the
key is absent. -/
def getRaw (l : List (String × RawValue)) (k : String) : RawValue :=
  (lookupOpt l k).getD (.undef)

/-- JS property read on a decoded-value map: `undefined` when absent. -/
def getDec (l : List (String × JSVal)) (k : String) : JSVal :=
  (lookupOpt l k).getD (.undef)

/-- The hook's cross-render mutable storage: the ref inside
`usePreviousIfShallowEqual` (helpers.ts) plus the four cache cells created
at lines 38-45 of the source. -/
structure HookState where
  memoParamConfigMapRef : QueryParamConfigMap
  paramConfigMapRef : QueryParamConfigMap
  parsedQueryRef : EncodedQueryMap
  encodedValuesCacheRef : Option EncodedQueryMap
  decodedValuesCacheRef : DecodedQueryMap

/-- The `for (const paramName of paramNames)` loop of
`getLatestDecodedValues` (source lines 92-113).  For each configured
parameter it compares the new raw value against the cached raw value with
`shallowEqual`; on a change it re-decodes (which may throw, aborting the
rest of the loop), otherwise it reuses both cached values.  Returns the
trace of `decode` invocations (name and the raw argument handed over, in
order) and, on success, the fresh `encodedValues` / `decodedValues` entry
lists plus the advanced allocation counter. -/
def decodeLoop (cfgEntries : List (String × QueryParamConfig))
    (parsedEntries encCacheEntries : List (String × RawValue))
    (decCacheEntries : List (String × JSVal)) (n : Nat) :
    List (String × RawValue) ×
      Except String (List (String × RawValue) × List (String × JSVal) × Nat) :=
  match cfgEntries with
  | [] => ([], .ok ([], [], n))
  | (paramName, paramConfig) :: rest =>
    let newRaw := getRaw parsedEntries paramName
    let cachedRaw := getRaw encCacheEntries paramName
    let hasNewEncodedValue := !(rawShallowEqual cachedRaw newRaw)
    if hasNewEncodedValue then
      match paramConfig.decode newRaw n with
      | .error e => ([(paramName, newRaw)], .error e)
      | .ok (decodedValue, n1) =>
        let next := decodeLoop rest parsedEntries encCacheEntries decCacheEntries n1
        ((paramName, newRaw) :: next.1,
          next.2.map (fun x => ((paramName, newRaw) :: x.1, (paramName, decodedValue) :: x.2.1, x.2.2)))
    else
      let next := decodeLoop rest parsedEntries encCacheEntries decCacheEntries n
      (next.1,
        next.2.map (fun x =>
          ((paramName, cachedRaw) :: x.1, (paramName, getDec decCacheEntries paramName) :: x.2.1, x.2.2)))

/-- The result of `getLatestDecodedValues`: the fresh (or reused) encoded
and decoded value containers. -/
structure GLDVOutput where
  encodedValues : EncodedQueryMap
  decodedValues : DecodedQueryMap
deriving DecidableEq, Repr

/-- `getLatestDecodedValues` (source lines 51-127), with the state threaded
explicitly.  `parse` is the shared memoized query parser (modelled from the
spec: `memoizedQueryParser.ts` is not under `src/`; the spec's parser
contract — same string value gives a reference-identical parsed object — is
exactly purity of `parse`).  `location` is the raw search string of the
current location.  Returns the decode-invocation trace and, unless a
decoder throws, the output, the (unchanged) state and the advanced
allocation counter; the two fresh `{}` containers built at lines 86 and 91
receive fresh identity tags from the counter. -/
def getLatestDecodedValues (parse : String → EncodedQueryMap) (location : String)
    (paramConfigMap : QueryParamConfigMap) (s : HookState) (n : Nat) :
    List (String × RawValue) × Except String (GLDVOutput × HookState × Nat) :=
  let hasNewParamConfigMap := !(configShallowEqual s.paramConfigMapRef paramConfigMap)
  let parsedQuery := parse location
  let hasNewParsedQuery := !(decide (s.parsedQueryRef = parsedQuery))
  if !hasNewParsedQuery && !hasNewParamConfigMap && s.encodedValuesCacheRef.isSome then
    ([], .ok
      ({ encodedValues := s.encodedValuesCacheRef.getD ⟨0, []⟩,
         decodedValues := s.decodedValuesCacheRef }, s, n))
  else
    let encodedValuesCache := (s.encodedValuesCacheRef.map RefMap.entries).getD []
    let decodedValuesCache := s.decodedValuesCacheRef.entries
    let r :=
      decodeLoop paramConfigMap.entries parsedQuery.entries encodedValuesCache
        decodedValuesCache n
    (r.1, r.2.map (fun x =>
      let encodedValues : EncodedQueryMap := ⟨x.2.2, x.1⟩
      let decodedValues : DecodedQueryMap := ⟨x.2.2 + 1, x.2.1⟩
      let hasNewDecodedValues := !(decShallowEqual s.decodedValuesCacheRef decodedValues)
      ({ encodedValues := encodedValues,
         decodedValues := if hasNewDecodedValues then decodedValues else s.decodedValuesCacheRef },
        s, x.2.2 + 2)))

/-- Modelled from the spec: `helpers.ts` is not under `src/`.  The
memoization at line 49 of the source ("memoize paramConfigMap to make the
API nicer for consumers"): returns the previously memoized map when the
incoming one is shallow-equal to it, otherwise the incoming map. -/
def usePreviousIfShallowEqual (prev current : QueryParamConfigMap) : QueryParamConfigMap :=
  if configShallowEqual prev current then prev else current

/-- Modelled from the spec: `helpers.ts` is not under `src/`.  The deferred
cache commit (the `useUpdateRefIfShallowNew` effects at lines 133-136 plus
the effect inside `usePreviousIfShallowEqual`), run by the framework after
the render commit: each ref is overwritten only when the new value is
shallow-new ("only updating a cache field when its new value is not already
... equal to the cached one").  `input` is the consumer's raw param config
map, `paramConfigMap` the memoized one. -/
def commitUpdates (input paramConfigMap : QueryParamConfigMap)
    (parsedQuery : EncodedQueryMap) (encodedValues : EncodedQueryMap)
    (decodedValues : DecodedQueryMap) (s : HookState) : HookState :=
  { memoParamConfigMapRef :=
      if configShallowEqual s.memoParamConfigMapRef input then s.memoParamConfigMapRef else input
    paramConfigMapRef :=
      if configShallowEqual s.paramConfigMapRef paramConfigMap then s.paramConfigMapRef
      else paramConfigMap
    parsedQueryRef :=
      if rawMapShallowEqual s.parsedQueryRef parsedQuery then s.parsedQueryRef else parsedQuery
    encodedValuesCacheRef :=
      match s.encodedValuesCacheRef with
      | none => some encodedValues
      | some old => some (if rawMapShallowEqual old encodedValues then old else encodedValues)
    decodedValuesCacheRef :=
      if decShallowEqual s.decodedValuesCacheRef decodedValues then s.decodedValuesCacheRef
      else decodedValues }

/-- One evaluation of the hook (source lines 27-164): parse the current
location, memoize the incoming param config map, run
`getLatestDecodedValues`, and schedule the deferred cache commit.  Returns
the decode trace and, unless a decoder throws, the decoded-values container
handed to the consumer, the post-commit state, and the allocation counter.
A thrown decode error propagates out of the render and no commit runs. -/
def useQueryParams (parse : String → EncodedQueryMap) (location : String)
    (input : QueryParamConfigMap) (s : HookState) (n : Nat) :
    List (String × RawValue) × Except String (DecodedQueryMap × HookState × Nat) :=
  let parsedQuery := parse location
  let paramConfigMap := usePreviousIfShallowEqual s.memoParamConfigMapRef input
  let r := getLatestDecodedValues parse location paramConfigMap s n
  (r.1, r.2.map (fun x =>
    (x.1.decodedValues,
      commitUpdates input paramConfigMap parsedQuery x.1.encodedValues x.1.decodedValues x.2.1,
      x.2.2)))

/-- The argument of the setter: either a partial mapping of new decoded
values, or a function from the latest decoded values to the changes (whose
return value the source forwards as an `EncodedQuery` without re-encoding). -/
inductive ChangesType where
  | plain (m : List (String × JSVal))
  | fn (f : DecodedQueryMap → List (String × RawValue))

/-- What the location provider's `setLocation` receives. -/
structure SetLocationCall where
  encodedChanges : List (String × RawValue)
  updateType : Option String
deriving Repr

/-- Modelled from the spec: `encodeQueryParams` comes from the external
`serialize-query-params` package.  "Encodes every entry through the
corresponding parameter's codec `encode` function, using the current param
config map."  An entry with no corresponding codec is outside the spec's
contract and is modelled as encoding to `undefined`. -/
def encodeQueryParams (paramConfigMap : QueryParamConfigMap)
    (changes : List (String × JSVal)) : List (String × RawValue) :=
  changes.map (fun p =>
    (p.1, match lookupOpt paramConfigMap.entries p.1 with
      | some cfg => cfg.encode p.2
      | none => .undef))

/-- `setQuery` (source lines 139-160).  `paramConfigMap` is the memoized
config map captured by the `useCallback` closure; `location` is the
location at call time (which may differ from the one at render time).  For
a function argument it first recomputes the latest decoded values, writes
them synchronously into the decoded-values cache cell, applies the
function, and forwards its result unencoded; for a plain mapping it encodes
every entry through the codecs.  Returns the decode trace and, unless a
decoder throws, the `setLocation` call, the post-call state and the
counter. -/
def setQuery (parse : String → EncodedQueryMap) (location : String)
    (paramConfigMap : QueryParamConfigMap) (changes : ChangesType)
    (updateType : Option String) (s : HookState) (n : Nat) :
    List (String × RawValue) × Except String (SetLocationCall × HookState × Nat) :=
  match changes with
  | .fn f =>
    let r := getLatestDecodedValues parse location paramConfigMap s n
    (r.1, r.2.map (fun x =>
      let latestValues := x.1.decodedValues
      let s1 := { x.2.1 with decodedValuesCacheRef := latestValues }
      ({ encodedChanges := f latestValues, updateType := updateType }, s1, x.2.2)))
  | .plain m =>
    ([], .ok ({ encodedChanges := encodeQueryParams paramConfigMap m,
                updateType := updateType }, s, n))

/-- The decoded-values container an evaluation returns, if it succeeded. -/
def renderedValues
    (r : List (String × RawValue) × Except String (DecodedQueryMap × HookState × Nat)) :
    Option DecodedQueryMap :=
  r.2.toOption.map (fun x => x.1)

theorem except_map_ok {E A B : Type} {f : A → B} {e : Except E A} {b : B}
    (h : e.map f = .ok b) : ∃ a, e = .ok a ∧ b = f a := by
  cases e with
  | error x => simp [Except.map] at h
  | ok a => exact ⟨a, rfl, by simpa [Except.map] using h.symm⟩

theorem decShallowEqual_iff (a b : DecodedQueryMap) :
    decShallowEqual a b = true ↔ ∀ k, lookupOpt a.entries k = lookupOpt b.entries k := by
  have h := shallowEqualEntries_iff (fun v : JSVal => v) (fun x y => x == y)
    (fun x y => by simp) a.entries b.entries
  simpa [decShallowEqual, Option.map_id'] using h

theorem rawMapShallowEqual_iff (a b : EncodedQueryMap) :
    rawMapShallowEqual a b = true ↔ ∀ k, lookupOpt a.entries k = lookupOpt b.entries k := by
  have h := shallowEqualEntries_iff (fun v : RawValue => v) rawShallowEqual
    rawShallowEqual_iff a.entries b.entries
  simpa [rawMapShallowEqual, Option.map_id'] using h

theorem configShallowEqual_iff (a b : QueryParamConfigMap) :
    configShallowEqual a b = true ↔
      ∀ k, (lookupOpt a.entries k).map QueryParamConfig.id =
        (lookupOpt b.entries k).map QueryParamConfig.id := by
  exact shallowEqualEntries_iff QueryParamConfig.id configIs
    (fun x y => by simp [configIs]) a.entries b.entries

theorem decShallowEqual_refl (a : DecodedQueryMap) : decShallowEqual a a = true :=
  (decShallowEqual_iff a a).mpr (fun _ => rfl)

theorem rawMapShallowEqual_refl (a : EncodedQueryMap) : rawMapShallowEqual a a = true :=
  (rawMapShallowEqual_iff a a).mpr (fun _ => rfl)

theorem configShallowEqual_refl (a : QueryParamConfigMap) : configShallowEqual a a = true :=
  (configShallowEqual_iff a a).mpr (fun _ => rfl)

/-- Keys agree between two entry lists whose lookups agree after mapping. -/
theorem keyMem_eq_of_map_eq {V W β : Type} {a : List (String × V)} {b : List (String × W)}
    {f : V → β} {g : W → β}
    (h : ∀ k, (lookupOpt a k).map f = (lookupOpt b k).map g) :
    ∀ k, keyMem a k = keyMem b k := by
  intro k
  have := congrArg Option.isSome (h k)
  simpa [keyMem, Option.isSome_map] using this

/-- Looking up in a list built by mapping each entry to a key-determined
value. -/
theorem lookupOpt_map_entries {V W : Type} (l : List (String × V)) (g : String → W)
    (k : String) :
    lookupOpt (l.map (fun p => (p.1, g p.1))) k = (lookupOpt l k).map (fun _ => g k) := by
  induction l with
  | nil => simp [lookupOpt]
  | cons p rest ih =>
    by_cases hpk : p.1 == k
    · have hk : p.1 = k := by simpa using hpk
      simp [lookupOpt, List.find?, hpk, hk]
    · simpa [lookupOpt, List.find?, hpk] using ih

theorem keyMem_cons {V : Type} (a : String) (v : V) (l : List (String × V)) (k : String) :
    keyMem ((a, v) :: l) k = ((a == k) || keyMem l k) := by
  by_cases h : a == k <;> simp [keyMem, lookupOpt, List.find?, h]

theorem lookupOpt_cons_self {V : Type} {a : String} (v : V) (l : List (String × V))
    {k : String} (h : a = k) : lookupOpt ((a, v) :: l) k = some v := by
  simp [lookupOpt, List.find?, h]

theorem lookupOpt_cons_ne {V : Type} {a : String} (v : V) (l : List (String × V))
    {k : String} (h : ¬ a = k) : lookupOpt ((a, v) :: l) k = lookupOpt l k := by
  have hb : (a == k) = false := by simpa using h
  simp [lookupOpt, List.find?, hb]

/-- Every decode invocation recorded by the loop names a configured
parameter, receives exactly the raw parsed value for that name, and happens
only when that raw value is not shallow-equal to the cached one. -/
theorem decodeLoop_trace {cfgEntries : List (String × QueryParamConfig)}
    {parsedEntries encCacheEntries : List (String × RawValue)}
    {decCacheEntries : List (String × JSVal)} {n : Nat} {k : String} {r : RawValue}
    (h : (k, r) ∈ (decodeLoop cfgEntries parsedEntries encCacheEntries decCacheEntries n).1) :
    keyMem cfgEntries k = true ∧ r = getRaw parsedEntries k ∧
      rawShallowEqual (getRaw encCacheEntries k) (getRaw parsedEntries k) = false := by
  induction cfgEntries generalizing n with
  | nil => simp [decodeLoop] at h
  | cons p rest ih =>
    obtain ⟨paramName, paramConfig⟩ := p
    by_cases hchg : rawShallowEqual (getRaw encCacheEntries paramName)
        (getRaw parsedEntries paramName) = true
    · simp only [decodeLoop, hchg, Bool.not_true, Bool.false_eq_true, if_false] at h
      rcases ih h with ⟨h1, h2, h3⟩
      exact ⟨by simp [keyMem_cons, h1], h2, h3⟩
    · have hchg2 : rawShallowEqual (getRaw encCacheEntries paramName)
          (getRaw parsedEntries paramName) = false := by
        simpa using hchg
      simp only [decodeLoop, hchg2, Bool.not_false, if_true] at h
      cases hdec : paramConfig.decode (getRaw parsedEntries paramName) n with
      | error e =>
        rw [hdec] at h
        simp only [List.mem_singleton, Prod.mk.injEq] at h
        refine ⟨by simp [keyMem_cons, h.1], ?_, ?_⟩
        · rw [h.1]; exact h.2
        · rw [h.1]; exact hchg2
      | ok y =>
        rw [hdec] at h
        simp only [List.mem_cons, Prod.mk.injEq] at h
        rcases h with h | h
        · refine ⟨by simp [keyMem_cons, h.1], ?_, ?_⟩
          · rw [h.1]; exact h.2
          · rw [h.1]; exact hchg2
        · rcases ih h with ⟨h1, h2, h3⟩
          exact ⟨by simp [keyMem_cons, h1], h2, h3⟩

/-- A parameter whose raw value is shallow-equal to the cached raw value is
never decoded. -/
theorem decodeLoop_not_traced {cfgEntries : List (String × QueryParamConfig)}
    {parsedEntries encCacheEntries : List (String × RawValue)}
    {decCacheEntries : List (String × JSVal)} {n : Nat} {k : String}
    (hk : rawShallowEqual (getRaw encCacheEntries k) (getRaw parsedEntries k) = true) :
    ∀ r, (k, r) ∉ (decodeLoop cfgEntries parsedEntries encCacheEntries decCacheEntries n).1 := by
  intro r hmem
  rcases decodeLoop_trace hmem with ⟨_, _, h3⟩
  rw [hk] at h3
  simp at h3

/-- On success, the fresh encoded-values entries are exactly the raw parsed
values of the configured parameters (in the reuse branch the cached raw
value is shallow-equal, hence equal, to the parsed one). -/
theorem decodeLoop_enc {cfgEntries : List (String × QueryParamConfig)}
    {parsedEntries encCacheEntries : List (String × RawValue)}
    {decCacheEntries : List (String × JSVal)} {n : Nat}
    {x : List (String × RawValue) × List (String × JSVal) × Nat}
    (h : (decodeLoop cfgEntries parsedEntries encCacheEntries decCacheEntries n).2 = .ok x) :
    x.1 = cfgEntries.map (fun p => (p.1, getRaw parsedEntries p.1)) := by
  induction cfgEntries generalizing n x with
  | nil =>
    simp only [decodeLoop, Except.ok.injEq] at h
    rw [← h]
    simp
  | cons p rest ih =>
    obtain ⟨paramName, paramConfig⟩ := p
    by_cases hchg : rawShallowEqual (getRaw encCacheEntries paramName)
        (getRaw parsedEntries paramName) = true
    · simp only [decodeLoop, hchg, Bool.not_true, Bool.false_eq_true, if_false] at h
      rcases except_map_ok h with ⟨y, hy, hx⟩
      have hcr : getRaw encCacheEntries paramName = getRaw parsedEntries paramName :=
        (rawShallowEqual_iff _ _).mp hchg
      rw [hx]
      simp [ih hy, hcr]
    · have hchg2 : rawShallowEqual (getRaw encCacheEntries paramName)
          (getRaw parsedEntries paramName) = false := by
        simpa using hchg
      simp only [decodeLoop, hchg2, Bool.not_false, if_true] at h
      cases hdec : paramConfig.decode (getRaw parsedEntries paramName) n with
      | error e => rw [hdec] at h; simp at h
      | ok y =>
        rw [hdec] at h
        rcases except_map_ok h with ⟨z, hz, hx⟩
        rw [hx]
        simp [ih hz]

/-- On success, the fresh decoded-values entries have exactly the configured
keys. -/
theorem decodeLoop_dec_keys {cfgEntries : List (String × QueryParamConfig)}
    {parsedEntries encCacheEntries : List (String × RawValue)}
    {decCacheEntries : List (String × JSVal)} {n : Nat}
    {x : List (String × RawValue) × List (String × JSVal) × Nat}
    (h : (decodeLoop cfgEntries parsedEntries encCacheEntries decCacheEntries n).2 = .ok x) :
    ∀ k, keyMem x.2.1 k = keyMem cfgEntries k := by
  induction cfgEntries generalizing n x with
  | nil =>
    simp only [decodeLoop, Except.ok.injEq] at h
    rw [← h]
    intro k
    rfl
  | cons p rest ih =>
    obtain ⟨paramName, paramConfig⟩ := p
    intro k
    by_cases hchg : rawShallowEqual (getRaw encCacheEntries paramName)
        (getRaw parsedEntries paramName) = true
    · simp only [decodeLoop, hchg, Bool.not_true, Bool.false_eq_true, if_false] at h
      rcases except_map_ok h with ⟨y, hy, hx⟩
      rw [hx]
      simp [keyMem_cons, ih hy]
    · have hchg2 : rawShallowEqual (getRaw encCacheEntries paramName)
          (getRaw parsedEntries paramName) = false := by
        simpa using hchg
      simp only [decodeLoop, hchg2, Bool.not_false, if_true] at h
      cases hdec : paramConfig.decode (getRaw parsedEntries paramName) n with
      | error e => rw [hdec] at h; simp at h
      | ok y =>
        rw [hdec] at h
        rcases except_map_ok h with ⟨z, hz, hx⟩
        rw [hx]
        simp [keyMem_cons, ih hz]

/-- When no configured parameter's raw value changed, the loop decodes
nothing: empty trace, cached raw and decoded values reused entry-wise, and
the allocation counter untouched. -/
theorem decodeLoop_reuse {cfgEntries : List (String × QueryParamConfig)}
    {parsedEntries encCacheEntries : List (String × RawValue)}
    {decCacheEntries : List (String × JSVal)} {n : Nat}
    (hall : ∀ p ∈ cfgEntries,
      rawShallowEqual (getRaw encCacheEntries p.1) (getRaw parsedEntries p.1) = true) :
    decodeLoop cfgEntries parsedEntries encCacheEntries decCacheEntries n =
      ([], .ok (cfgEntries.map (fun p => (p.1, getRaw encCacheEntries p.1)),
        cfgEntries.map (fun p => (p.1, getDec decCacheEntries p.1)), n)) := by
  induction cfgEntries with
  | nil => simp [decodeLoop]
  | cons p rest ih =>
    obtain ⟨paramName, paramConfig⟩ := p
    have hchg : rawShallowEqual (getRaw encCacheEntries paramName)
        (getRaw parsedEntries paramName) = true :=
      hall (paramName, paramConfig) (List.mem_cons_self _ _)
    have hrest : ∀ p ∈ rest,
        rawShallowEqual (getRaw encCacheEntries p.1) (getRaw parsedEntries p.1) = true :=
      fun p hp => hall p (List.mem_cons_of_mem _ hp)
    simp only [decodeLoop, hchg, Bool.not_true, Bool.false_eq_true, if_false]
    rw [ih hrest]
    simp [Except.map]

/-- On success, the decoded value of a parameter whose raw value did not
change is looked up from the decoded-values cache. -/
theorem decodeLoop_dec_at {cfgEntries : List (String × QueryParamConfig)}
    {parsedEntries encCacheEntries : List (String × RawValue)}
    {decCacheEntries : List (String × JSVal)} {n : Nat} {k : String}
    {x : List (String × RawValue) × List (String × JSVal) × Nat}
    (hk : rawShallowEqual (getRaw encCacheEntries k) (getRaw parsedEntries k) = true)
    (h : (decodeLoop cfgEntries parsedEntries encCacheEntries decCacheEntries n).2 = .ok x) :
    lookupOpt x.2.1 k = (lookupOpt cfgEntries k).map (fun _ => getDec decCacheEntries k) := by
  induction cfgEntries generalizing n x with
  | nil =>
    simp only [decodeLoop, Except.ok.injEq] at h
    rw [← h]
    rfl
  | cons p rest ih =>
    obtain ⟨paramName, paramConfig⟩ := p
    by_cases hpk : paramName = k
    · subst hpk
      simp only [decodeLoop, hk, Bool.not_true, Bool.false_eq_true, if_false] at h
      rcases except_map_ok h with ⟨y, hy, hx⟩
      rw [hx, lookupOpt_cons_self _ _ rfl, lookupOpt_cons_self _ _ rfl]
      rfl
    · by_cases hchg : rawShallowEqual (getRaw encCacheEntries paramName)
          (getRaw parsedEntries paramName) = true
      · simp only [decodeLoop, hchg, Bool.not_true, Bool.false_eq_true, if_false] at h
        rcases except_map_ok h with ⟨y, hy, hx⟩
        rw [hx, lookupOpt_cons_ne _ _ hpk, lookupOpt_cons_ne _ _ hpk]
        exact ih hy
      · have hchg2 : rawShallowEqual (getRaw encCacheEntries paramName)
            (getRaw parsedEntries paramName) = false := by
          simpa using hchg
        simp only [decodeLoop, hchg2, Bool.not_false, if_true] at h
        cases hdec : paramConfig.decode (getRaw parsedEntries paramName) n with
        | error e => rw [hdec] at h; simp at h
        | ok y =>
          rw [hdec] at h
          rcases except_map_ok h with ⟨z, hz, hx⟩
          rw [hx, lookupOpt_cons_ne _ _ hpk, lookupOpt_cons_ne _ _ hpk]
          exact ih hz

/-- On success, a configured parameter whose raw value is not shallow-equal
to the cached one was decoded, and its decode call received the raw parsed
value. -/
theorem decodeLoop_traced_of_changed {cfgEntries : List (String × QueryParamConfig)}
    {parsedEntries encCacheEntries : List (String × RawValue)}
    {decCacheEntries : List (String × JSVal)} {n : Nat} {k : String}
    {x : List (String × RawValue) × List (String × JSVal) × Nat}
    (h : (decodeLoop cfgEntries parsedEntries encCacheEntries decCacheEntries n).2 = .ok x)
    (hkm : keyMem cfgEntries k = true)
    (hchg : rawShallowEqual (getRaw encCacheEntries k) (getRaw parsedEntries k) = false) :
    (k, getRaw parsedEntries k) ∈
      (decodeLoop cfgEntries parsedEntries encCacheEntries decCacheEntries n).1 := by
  induction cfgEntries generalizing n x with
  | nil => simp [keyMem, lookupOpt] at hkm
  | cons p rest ih =>
    obtain ⟨paramName, paramConfig⟩ := p
    by_cases hpk : paramName = k
    · subst hpk
      simp only [decodeLoop, hchg, Bool.not_false, if_true]
      simp only [decodeLoop, hchg, Bool.not_false, if_true] at h
      cases hdec : paramConfig.decode (getRaw parsedEntries paramName) n with
      | error e => rw [hdec] at h; simp at h
      | ok y =>
        obtain ⟨dv, n1⟩ := y
        exact List.mem_cons_self _ _
    · have hkm2 : keyMem rest k = true := by
        have hb : (paramName == k) = false := by simpa using hpk
        simpa [keyMem_cons, hb] using hkm
      by_cases hchgp : rawShallowEqual (getRaw encCacheEntries paramName)
          (getRaw parsedEntries paramName) = true
      · simp only [decodeLoop, hchgp, Bool.not_true, Bool.false_eq_true, if_false]
        simp only [decodeLoop, hchgp, Bool.not_true, Bool.false_eq_true, if_false] at h
        rcases except_map_ok h with ⟨y, hy, hx⟩
        exact ih hy hkm2
      · have hchgp2 : rawShallowEqual (getRaw encCacheEntries paramName)
            (getRaw parsedEntries paramName) = false := by
          simpa using hchgp
        simp only [decodeLoop, hchgp2, Bool.not_false, if_true]
        simp only [decodeLoop, hchgp2, Bool.not_false, if_true] at h
        cases hdec : paramConfig.decode (getRaw parsedEntries paramName) n with
        | error e => rw [hdec] at h; simp at h
        | ok y =>
          obtain ⟨dv, n1⟩ := y
          rw [hdec] at h
          rcases except_map_ok h with ⟨z, hz, hx⟩
          exact List.mem_cons_of_mem _ (ih hz hkm2)

/-- The short-circuit condition of `getLatestDecodedValues` (source lines
71-75): parsed query reference unchanged, param config map shallow-equal to
the cached one, and an encoded snapshot exists. -/
def shortCircuitCond (parse : String → EncodedQueryMap) (location : String)
    (paramConfigMap : QueryParamConfigMap) (s : HookState) : Prop :=
  s.parsedQueryRef = parse location ∧
    configShallowEqual s.paramConfigMapRef paramConfigMap = true ∧
    s.encodedValuesCacheRef.isSome = true

instance (parse : String → EncodedQueryMap) (location : String)
    (paramConfigMap : QueryParamConfigMap) (s : HookState) :
    Decidable (shortCircuitCond parse location paramConfigMap s) := by
  unfold shortCircuitCond
  infer_instance

theorem gldv_shortCircuit (parse : String → EncodedQueryMap) (location : String)
    (cfg : QueryParamConfigMap) (s : HookState) (n : Nat)
    (h : shortCircuitCond parse location cfg s) :
    getLatestDecodedValues parse location cfg s n =
      ([], .ok ({ encodedValues := s.encodedValuesCacheRef.getD ⟨0, []⟩,
                  decodedValues := s.decodedValuesCacheRef }, s, n)) := by
  obtain ⟨h1, h2, h3⟩ := h
  simp [getLatestDecodedValues, h1, h2, h3]

theorem gldv_recompute (parse : String → EncodedQueryMap) (location : String)
    (cfg : QueryParamConfigMap) (s : HookState) (n : Nat)
    (h : ¬ shortCircuitCond parse location cfg s) :
    getLatestDecodedValues parse location cfg s n =
      ((decodeLoop cfg.entries (parse location).entries
          ((s.encodedValuesCacheRef.map RefMap.entries).getD [])
          s.decodedValuesCacheRef.entries n).1,
        ((decodeLoop cfg.entries (parse location).entries
          ((s.encodedValuesCacheRef.map RefMap.entries).getD [])
          s.decodedValuesCacheRef.entries n).2).map (fun x =>
          ({ encodedValues := ⟨x.2.2, x.1⟩,
             decodedValues :=
               if !(decShallowEqual s.decodedValuesCacheRef ⟨x.2.2 + 1, x.2.1⟩) then
                 (⟨x.2.2 + 1, x.2.1⟩ : DecodedQueryMap)
               else s.decodedValuesCacheRef }, s, x.2.2 + 2))) := by
  simp only [getLatestDecodedValues]
  split
  · next hcond =>
    exfalso
    apply h
    simp only [Bool.and_eq_true, Bool.not_not, decide_eq_true_eq] at hcond
    exact ⟨hcond.1.1, hcond.1.2, hcond.2⟩
  · rfl

/-- `getLatestDecodedValues` never writes the cache: the threaded state it
returns is the input state. -/
theorem gldv_state {parse : String → EncodedQueryMap} {location : String}
    {cfg : QueryParamConfigMap} {s : HookState} {n : Nat}
    {x : GLDVOutput × HookState × Nat}
    (h : (getLatestDecodedValues parse location cfg s n).2 = .ok x) : x.2.1 = s := by
  by_cases hsc : shortCircuitCond parse location cfg s
  · rw [gldv_shortCircuit parse location cfg s n hsc] at h
    simp only [Except.ok.injEq] at h
    rw [← h]
  · rw [gldv_recompute parse location cfg s n hsc] at h
    rcases except_map_ok h with ⟨y, hy, hx⟩
    rw [hx]

/-- The decoded-values container an evaluation returns is either the cached
container itself or not shallow-equal to it. -/
theorem gldv_decoded_cases {parse : String → EncodedQueryMap} {location : String}
    {cfg : QueryParamConfigMap} {s : HookState} {n : Nat}
    {x : GLDVOutput × HookState × Nat}
    (h : (getLatestDecodedValues parse location cfg s n).2 = .ok x) :
    x.1.decodedValues = s.decodedValuesCacheRef ∨
      decShallowEqual s.decodedValuesCacheRef x.1.decodedValues = false := by
  by_cases hsc : shortCircuitCond parse location cfg s
  · rw [gldv_shortCircuit parse location cfg s n hsc] at h
    simp only [Except.ok.injEq] at h
    rw [← h]
    exact Or.inl rfl
  · rw [gldv_recompute parse location cfg s n hsc] at h
    rcases except_map_ok h with ⟨y, hy, hx⟩
    rw [hx]
    cases hd : decShallowEqual s.decodedValuesCacheRef ⟨y.2.2 + 1, y.2.1⟩ with
    | true => exact Or.inl (by simp [hd])
    | false => exact Or.inr (by simp [hd])

theorem commit_decoded {input cfg : QueryParamConfigMap} {pq enc : EncodedQueryMap}
    {d : DecodedQueryMap} {s : HookState}
    (hcases : d = s.decodedValuesCacheRef ∨ decShallowEqual s.decodedValuesCacheRef d = false) :
    (commitUpdates input cfg pq enc d s).decodedValuesCacheRef = d := by
  unfold commitUpdates
  rcases hcases with hd | hd
  · subst hd
    simp [decShallowEqual_refl]
  · simp [hd]

theorem commit_enc_lookups (input cfg : QueryParamConfigMap) (pq enc : EncodedQueryMap)
    (d : DecodedQueryMap) (s : HookState) :
    ∃ E, (commitUpdates input cfg pq enc d s).encodedValuesCacheRef = some E ∧
      ∀ k, lookupOpt E.entries k = lookupOpt enc.entries k := by
  unfold commitUpdates
  cases henc : s.encodedValuesCacheRef with
  | none => exact ⟨enc, rfl, fun k => rfl⟩
  | some old =>
    by_cases hold : rawMapShallowEqual old enc = true
    · exact ⟨old, by simp [hold], (rawMapShallowEqual_iff old enc).mp hold⟩
    · have hold2 : rawMapShallowEqual old enc = false := by simpa using hold
      exact ⟨enc, by simp [hold2], fun k => rfl⟩

theorem commit_parsed_lookups (input cfg : QueryParamConfigMap) (pq enc : EncodedQueryMap)
    (d : DecodedQueryMap) (s : HookState) :
    ∀ k, lookupOpt (commitUpdates input cfg pq enc d s).parsedQueryRef.entries k =
      lookupOpt pq.entries k := by
  intro k
  unfold commitUpdates
  by_cases hp : rawMapShallowEqual s.parsedQueryRef pq = true
  · simp only [hp, if_true]
    exact (rawMapShallowEqual_iff _ _).mp hp k
  · have hp2 : rawMapShallowEqual s.parsedQueryRef pq = false := by simpa using hp
    simp [hp2]

theorem commit_parsed_of_eq {input cfg : QueryParamConfigMap} {pq enc : EncodedQueryMap}
    {d : DecodedQueryMap} {s : HookState} (h : s.parsedQueryRef = pq) :
    (commitUpdates input cfg pq enc d s).parsedQueryRef = pq := by
  unfold commitUpdates
  subst h
  simp [rawMapShallowEqual_refl]

theorem commit_cfg_ids (input cfg : QueryParamConfigMap) (pq enc : EncodedQueryMap)
    (d : DecodedQueryMap) (s : HookState) :
    ∀ k, (lookupOpt (commitUpdates input cfg pq enc d s).paramConfigMapRef.entries k).map
        QueryParamConfig.id = (lookupOpt cfg.entries k).map QueryParamConfig.id := by
  intro k
  unfold commitUpdates
  by_cases hc : configShallowEqual s.paramConfigMapRef cfg = true
  · simp only [hc, if_true]
    exact (configShallowEqual_iff _ _).mp hc k
  · have hc2 : configShallowEqual s.paramConfigMapRef cfg = false := by simpa using hc
    simp [hc2]

theorem usePrev_ids (prev cur : QueryParamConfigMap) :
    ∀ k, (lookupOpt (usePreviousIfShallowEqual prev cur).entries k).map QueryParamConfig.id =
      (lookupOpt cur.entries k).map QueryParamConfig.id := by
  intro k
  unfold usePreviousIfShallowEqual
  by_cases hc : configShallowEqual prev cur = true
  · simp only [hc, if_true]
    exact (configShallowEqual_iff _ _).mp hc k
  · have hc2 : configShallowEqual prev cur = false := by simpa using hc
    simp [hc2]

/-- Inversion of a successful evaluation of the hook: the underlying
`getLatestDecodedValues` call, with the memoized config map, succeeded on
the unchanged input state, the consumer receives its decoded-values
container, and the post-commit state is the deferred cache update. -/
theorem render_inv {parse : String → EncodedQueryMap} {location : String}
    {input : QueryParamConfigMap} {s : HookState} {n : Nat}
    {tr : List (String × RawValue)} {d : DecodedQueryMap} {s1 : HookState} {n1 : Nat}
    (h : useQueryParams parse location input s n = (tr, .ok (d, s1, n1))) :
    ∃ out, getLatestDecodedValues parse location
        (usePreviousIfShallowEqual s.memoParamConfigMapRef input) s n = (tr, .ok (out, s, n1)) ∧
      d = out.decodedValues ∧
      s1 = commitUpdates input (usePreviousIfShallowEqual s.memoParamConfigMapRef input)
        (parse location) out.encodedValues out.decodedValues s := by
  unfold useQueryParams at h
  rw [Prod.ext_iff] at h
  obtain ⟨htr, hok⟩ := h
  rcases except_map_ok hok with ⟨y, hy, heq⟩
  have hst : y.2.1 = s := gldv_state hy
  simp only [Prod.mk.injEq] at heq
  obtain ⟨hd, hs1, hn1⟩ := heq
  refine ⟨y.1, ?_, hd, ?_⟩
  · rw [Prod.ext_iff]
    refine ⟨htr, ?_⟩
    rw [hy, hn1, ← hst]
  · rw [hs1, hst]

theorem renderedValues_eq (parse : String → EncodedQueryMap) (location : String)
    (input : QueryParamConfigMap) (s : HookState) (n : Nat) :
    renderedValues (useQueryParams parse location input s n) =
      ((getLatestDecodedValues parse location
          (usePreviousIfShallowEqual s.memoParamConfigMapRef input) s n).2).toOption.map
        (fun x => x.1.decodedValues) := by
  unfold renderedValues useQueryParams
  cases h : (getLatestDecodedValues parse location
      (usePreviousIfShallowEqual s.memoParamConfigMapRef input) s n).2 with
  | error e => simp [h, Except.map, Except.toOption]
  | ok x => simp [h, Except.map, Except.toOption]

/-- When every configured parameter's raw value equals the cached raw value
and the decoded cache covers exactly the configured keys, an evaluation
decodes nothing and hands back the cached decoded-values container itself. -/
theorem gldv_reuse_of (parse : String → EncodedQueryMap) (location : String)
    (cfg : QueryParamConfigMap) (s : HookState) (n : Nat)
    (hraw : ∀ k, keyMem cfg.entries k = true →
      getRaw ((s.encodedValuesCacheRef.map RefMap.entries).getD []) k =
        getRaw (parse location).entries k)
    (hkeys : ∀ k, keyMem s.decodedValuesCacheRef.entries k = keyMem cfg.entries k) :
    ((getLatestDecodedValues parse location cfg s n).2).toOption.map
        (fun x => x.1.decodedValues) = some s.decodedValuesCacheRef ∧
      (getLatestDecodedValues parse location cfg s n).1 = [] := by
  by_cases hsc : shortCircuitCond parse location cfg s
  · rw [gldv_shortCircuit parse location cfg s n hsc]
    exact ⟨rfl, rfl⟩
  · rw [gldv_recompute parse location cfg s n hsc]
    have hall : ∀ p ∈ cfg.entries,
        rawShallowEqual (getRaw ((s.encodedValuesCacheRef.map RefMap.entries).getD []) p.1)
          (getRaw (parse location).entries p.1) = true :=
      fun p hp => (rawShallowEqual_iff _ _).mpr (hraw p.1 ((keyMem_iff _ _).mpr ⟨p, hp, rfl⟩))
    rw [decodeLoop_reuse hall]
    have hds : decShallowEqual s.decodedValuesCacheRef
        ⟨n + 1, cfg.entries.map (fun p => (p.1, getDec s.decodedValuesCacheRef.entries p.1))⟩ =
          true := by
      apply (decShallowEqual_iff _ _).mpr
      intro k
      show lookupOpt s.decodedValuesCacheRef.entries k =
        lookupOpt (cfg.entries.map (fun p => (p.1, getDec s.decodedValuesCacheRef.entries p.1))) k
      rw [lookupOpt_map_entries]
      cases hk : lookupOpt cfg.entries k with
      | none =>
        have hkm : keyMem s.decodedValuesCacheRef.entries k = false := by
          rw [hkeys k]
          simp [keyMem, hk]
        have hnone : lookupOpt s.decodedValuesCacheRef.entries k = none :=
          Option.not_isSome_iff_eq_none.mp (by simp [keyMem] at hkm; simp [hkm])
        simp [hnone]
      | some c =>
        have hkm : keyMem s.decodedValuesCacheRef.entries k = true := by
          rw [hkeys k]
          simp [keyMem, hk]
        rcases Option.isSome_iff_exists.mp hkm with ⟨v, hv⟩
        rw [hv]
        simp [getDec, hv]
    refine ⟨?_, rfl⟩
    simp [Except.map, Except.toOption, hds]

/-- Core stability engine: after a successful evaluation, a second
evaluation against the same parser and raw search string with a
shallow-equal param config map hands back the very same decoded-values
container. -/
theorem render_stable {parse : String → EncodedQueryMap} {location : String}
    {input1 input2 : QueryParamConfigMap} {s0 : HookState} {n0 : Nat}
    {tr1 : List (String × RawValue)} {d1 : DecodedQueryMap} {s1 : HookState} {n1 : Nat}
    (h1 : useQueryParams parse location input1 s0 n0 = (tr1, .ok (d1, s1, n1)))
    (hcfg : configShallowEqual input2 input1 = true) :
    renderedValues (useQueryParams parse location input2 s1 n1) = some d1 := by
  rcases render_inv h1 with ⟨out1, hg1, hd1, hs1⟩
  have hg1ok : (getLatestDecodedValues parse location
      (usePreviousIfShallowEqual s0.memoParamConfigMapRef input1) s0 n0).2 =
      .ok (out1, s0, n1) := by rw [hg1]
  have hdec1 : s1.decodedValuesCacheRef = d1 := by
    rw [hs1, hd1]
    exact commit_decoded (gldv_decoded_cases hg1ok)
  obtain ⟨E, hEeq0, hElook⟩ := commit_enc_lookups input1
    (usePreviousIfShallowEqual s0.memoParamConfigMapRef input1) (parse location)
    out1.encodedValues out1.decodedValues s0
  have hEeq1 : s1.encodedValuesCacheRef = some E := by rw [hs1]; exact hEeq0
  have hcfgids : ∀ k,
      (lookupOpt s1.paramConfigMapRef.entries k).map QueryParamConfig.id =
        (lookupOpt (usePreviousIfShallowEqual s1.memoParamConfigMapRef input2).entries k).map
          QueryParamConfig.id := by
    intro k
    have hstep : (lookupOpt s1.paramConfigMapRef.entries k).map QueryParamConfig.id =
        (lookupOpt (usePreviousIfShallowEqual s0.memoParamConfigMapRef input1).entries k).map
          QueryParamConfig.id := by
      rw [hs1]
      exact commit_cfg_ids _ _ _ _ _ _ k
    rw [hstep, usePrev_ids s0.memoParamConfigMapRef input1 k,
      ← (configShallowEqual_iff input2 input1).mp hcfg k,
      ← usePrev_ids s1.memoParamConfigMapRef input2 k]
  have hsc_cfg : configShallowEqual s1.paramConfigMapRef
      (usePreviousIfShallowEqual s1.memoParamConfigMapRef input2) = true :=
    (configShallowEqual_iff _ _).mpr hcfgids
  rw [renderedValues_eq]
  by_cases hsc2 : shortCircuitCond parse location
      (usePreviousIfShallowEqual s1.memoParamConfigMapRef input2) s1
  · rw [gldv_shortCircuit _ _ _ _ _ hsc2]
    simp [Except.toOption, hdec1]
  · by_cases hsc1 : shortCircuitCond parse location
        (usePreviousIfShallowEqual s0.memoParamConfigMapRef input1) s0
    · exfalso
      apply hsc2
      refine ⟨?_, hsc_cfg, ?_⟩
      · rw [hs1]
        exact commit_parsed_of_eq hsc1.1
      · rw [hEeq1]
        rfl
    · rw [gldv_recompute _ _ _ _ _ hsc1] at hg1ok
      rcases except_map_ok hg1ok with ⟨y, hy, hout⟩
      simp only [Prod.mk.injEq] at hout
      obtain ⟨hout1, _, _⟩ := hout
      have hy1 : y.1 = (usePreviousIfShallowEqual s0.memoParamConfigMapRef input1).entries.map
          (fun p => (p.1, getRaw (parse location).entries p.1)) := decodeLoop_enc hy
      have hykeys : ∀ k, keyMem y.2.1 k =
          keyMem (usePreviousIfShallowEqual s0.memoParamConfigMapRef input1).entries k :=
        decodeLoop_dec_keys hy
      have hmmids : ∀ k,
          (lookupOpt (usePreviousIfShallowEqual s0.memoParamConfigMapRef input1).entries k).map
            QueryParamConfig.id =
          (lookupOpt (usePreviousIfShallowEqual s1.memoParamConfigMapRef input2).entries k).map
            QueryParamConfig.id := by
        intro k
        rw [usePrev_ids s0.memoParamConfigMapRef input1 k,
          ← (configShallowEqual_iff input2 input1).mp hcfg k,
          ← usePrev_ids s1.memoParamConfigMapRef input2 k]
      have hmm : ∀ k, keyMem (usePreviousIfShallowEqual s0.memoParamConfigMapRef input1).entries k =
          keyMem (usePreviousIfShallowEqual s1.memoParamConfigMapRef input2).entries k :=
        keyMem_eq_of_map_eq hmmids
      have hraw : ∀ k,
          keyMem (usePreviousIfShallowEqual s1.memoParamConfigMapRef input2).entries k = true →
          getRaw ((s1.encodedValuesCacheRef.map RefMap.entries).getD []) k =
            getRaw (parse location).entries k := by
        intro k hk
        rw [hEeq1]
        show getRaw E.entries k = getRaw (parse location).entries k
        have hmem1 : keyMem (usePreviousIfShallowEqual s0.memoParamConfigMapRef input1).entries k =
            true := by rw [hmm k]; exact hk
        rcases Option.isSome_iff_exists.mp hmem1 with ⟨c, hc⟩
        unfold getRaw
        rw [hElook k, hout1]
        show ((lookupOpt (RefMap.mk y.2.2 y.1).entries k).getD RawValue.undef) = _
        show ((lookupOpt y.1 k).getD RawValue.undef) = _
        rw [hy1, lookupOpt_map_entries, hc]
        rfl
      have hkeys : ∀ k, keyMem s1.decodedValuesCacheRef.entries k =
          keyMem (usePreviousIfShallowEqual s1.memoParamConfigMapRef input2).entries k := by
        intro k
        rw [hdec1, hd1, hout1]
        show keyMem (GLDVOutput.decodedValues
          { encodedValues := ⟨y.2.2, y.1⟩,
            decodedValues :=
              if !(decShallowEqual s0.decodedValuesCacheRef ⟨y.2.2 + 1, y.2.1⟩) then
                (⟨y.2.2 + 1, y.2.1⟩ : DecodedQueryMap)
              else s0.decodedValuesCacheRef }).entries k = _
        cases hcase : decShallowEqual s0.decodedValuesCacheRef ⟨y.2.2 + 1, y.2.1⟩ with
        | false =>
          simp only [hcase, Bool.not_false, if_true]
          rw [hykeys k, hmm k]
        | true =>
          simp only [hcase, Bool.not_true, Bool.false_eq_true, if_false]
          have hlk := (decShallowEqual_iff s0.decodedValuesCacheRef ⟨y.2.2 + 1, y.2.1⟩).mp hcase k
          have hkm2 : keyMem s0.decodedValuesCacheRef.entries k = keyMem y.2.1 k := by
            simp only [keyMem]
            exact congrArg Option.isSome hlk
          rw [hkm2, hykeys k, hmm k]
      have hre := gldv_reuse_of parse location
        (usePreviousIfShallowEqual s1.memoParamConfigMapRef input2) s1 n1 hraw hkeys
      rw [hre.1, hdec1]

/-- Looking up in a list built by mapping each entry to a value computed
from its key and value. -/
theorem lookupOpt_map_entries2 {V W : Type} (l : List (String × V)) (g : String → V → W)
    (k : String) :
    lookupOpt (l.map (fun p => (p.1, g p.1 p.2))) k = (lookupOpt l k).map (fun v => g k v) := by
  induction l with
  | nil => simp [lookupOpt]
  | cons p rest ih =>
    by_cases hpk : p.1 == k
    · have hk : p.1 = k := by simpa using hpk
      simp [lookupOpt, List.find?, hpk, hk]
    · simpa [lookupOpt, List.find?, hpk] using ih

/-- The concrete codec of the spec's scenarios: decode a raw string to the
number it denotes (a primitive value), encode a primitive back to its
string. -/
def wPageConfig : QueryParamConfig where
  id := 10
  decode := fun r n => .ok ((match r with | .str v => .prim v | _ => .undef), n)
  encode := fun v => match v with | .prim v2 => .str v2 | _ => (.undef)

/-- Concrete param config map with the single parameter `page`. -/
def wConfigMap : QueryParamConfigMap := ⟨1, [("page", wPageConfig)]⟩

/-- Concrete memoized parser for the scenarios. -/
def wParse : String → EncodedQueryMap := fun loc =>
  if loc = "?page=3" then ⟨100, [("page", .str "3")]⟩
  else if loc = "?page=5" then ⟨101, [("page", .str "5")]⟩
  else ⟨102, []⟩

/-- Concrete hook state as created on first render: caches empty. -/
def wState0 : HookState where
  memoParamConfigMapRef := wConfigMap
  paramConfigMapRef := wConfigMap
  parsedQueryRef := ⟨100, [("page", .str "3")]⟩
  encodedValuesCacheRef := none
  decodedValuesCacheRef := ⟨0, []⟩

/-- The decoded-values container produced by the first concrete render. -/
def wDec1 : DecodedQueryMap := ⟨1, [("page", .prim "3")]⟩

/-- The hook state after the first concrete render's commit. -/
def wState1 : HookState where
  memoParamConfigMapRef := wConfigMap
  paramConfigMapRef := wConfigMap
  parsedQueryRef := ⟨100, [("page", .str "3")]⟩
  encodedValuesCacheRef := some ⟨0, [("page", .str "3")]⟩
  decodedValuesCacheRef := wDec1

/-- Claim C1: reference stability of decoded values.  For two consecutive
evaluations with an identical raw search string (same `location` handed to
the same memoized parser, so no parameter's raw encoded value changes) and
a param config map shallow-equal to the previous one, the second
evaluation's decoded-values container is reference-identical (in the model:
equal, including the identity tag) to the first evaluation's. -/
theorem useQueryParams_reference_stability
    (parse : String → EncodedQueryMap) (location : String)
    (input1 input2 : QueryParamConfigMap) (s0 : HookState) (n0 : Nat)
    (tr1 : List (String × RawValue)) (d1 : DecodedQueryMap) (s1 : HookState) (n1 : Nat)
    (h1 : useQueryParams parse location input1 s0 n0 = (tr1, .ok (d1, s1, n1)))
    (hcfg : configShallowEqual input2 input1 = true) :
    renderedValues (useQueryParams parse location input2 s1 n1) = some d1 :=
  render_stable h1 hcfg

theorem useQueryParams_reference_stability_witness :
    renderedValues (useQueryParams wParse "?page=3" wConfigMap wState1 2) = some wDec1 :=
  useQueryParams_reference_stability wParse "?page=3" wConfigMap wConfigMap wState0 0
    [("page", .str "3")] wDec1 wState1 2 (by rfl) (by rfl)

/-- Claim C7: parser-identity stability.  The parser contract (same string
value parses to a reference-identical object) is purity of `parse` in the
model, so when the location changes to a new string instance with the same
string value (`location2 = location1`) and the config map is unchanged, the
decoded-values container stays reference-identical. -/
theorem useQueryParams_parser_identity_stability
    (parse : String → EncodedQueryMap) (location1 location2 : String)
    (input : QueryParamConfigMap) (s0 : HookState) (n0 : Nat)
    (tr1 : List (String × RawValue)) (d1 : DecodedQueryMap) (s1 : HookState) (n1 : Nat)
    (h1 : useQueryParams parse location1 input s0 n0 = (tr1, .ok (d1, s1, n1)))
    (hloc : location2 = location1) :
    renderedValues (useQueryParams parse location2 input s1 n1) = some d1 := by
  subst hloc
  exact render_stable h1 (configShallowEqual_refl input)

theorem useQueryParams_parser_identity_stability_witness :
    renderedValues (useQueryParams wParse "?page=3" wConfigMap wState1 2) = some wDec1 ∧
      wParse "?page=3" = wParse "?page=3" :=
  ⟨useQueryParams_parser_identity_stability wParse "?page=3" "?page=3" wConfigMap wState0 0
      [("page", .str "3")] wDec1 wState1 2 (by rfl) rfl, rfl⟩

/-- Claim C8: the change-detector/decoder pass is read-only over the cache:
the state threaded through `getLatestDecodedValues` comes back unchanged in
every cache cell; the cache is written only by the deferred
`commitUpdates` step of `useQueryParams`. -/
theorem getLatestDecodedValues_readonly (parse : String → EncodedQueryMap)
    (location : String) (cfg : QueryParamConfigMap) (s : HookState) (n : Nat) :
    ((getLatestDecodedValues parse location cfg s n).2).toOption.map (fun x => x.2.1) =
      ((getLatestDecodedValues parse location cfg s n).2).toOption.map (fun _ => s) := by
  cases h : (getLatestDecodedValues parse location cfg s n).2 with
  | error e => rfl
  | ok x => simp [Except.toOption, gldv_state h]

theorem setQuery_fn_spec (parse : String → EncodedQueryMap) (location : String)
    (cfg : QueryParamConfigMap) (f : DecodedQueryMap → List (String × RawValue))
    (ut : Option String) (s : HookState) (n : Nat) (tr : List (String × RawValue))
    (out : GLDVOutput) (sA : HookState) (nA : Nat)
    (h : getLatestDecodedValues parse location cfg s n = (tr, .ok (out, sA, nA))) :
    (setQuery parse location cfg (ChangesType.fn f) ut s n).2 =
      .ok ({ encodedChanges := f out.decodedValues, updateType := ut },
        { s with decodedValuesCacheRef := out.decodedValues }, nA) := by
  have hok : (getLatestDecodedValues parse location cfg s n).2 = .ok (out, sA, nA) := by
    rw [h]
  have hst : sA = s := gldv_state hok
  subst hst
  simp only [setQuery]
  rw [hok]
  rfl

/-- Claim C3: the functional-update path of the setter.  Given the current
location at call time, `setQuery` with a function argument recomputes the
latest decoded values with `getLatestDecodedValues` (so they equal exactly
what a fresh evaluation against the current location would produce, not the
values captured at setter creation), synchronously writes them into the
decoded-values cache cell, invokes the function with them, and forwards the
function's return value to the location provider unchanged (no
re-encoding), together with the update-type hint. -/
theorem setQuery_functional_update (parse : String → EncodedQueryMap) (location : String)
    (cfg : QueryParamConfigMap) (f : DecodedQueryMap → List (String × RawValue))
    (ut : Option String) (s : HookState) (n : Nat) (tr : List (String × RawValue))
    (out : GLDVOutput) (sA : HookState) (nA : Nat)
    (h : getLatestDecodedValues parse location cfg s n = (tr, .ok (out, sA, nA))) :
    (setQuery parse location cfg (ChangesType.fn f) ut s n).2 =
      .ok ({ encodedChanges := f out.decodedValues, updateType := ut },
        { s with decodedValuesCacheRef := out.decodedValues }, nA) :=
  setQuery_fn_spec parse location cfg f ut s n tr out sA nA h

/-- The concrete location provider call produced in Scenario D: location is
`?page=5` and the function increments the latest page. -/
def wIncrFn : DecodedQueryMap → List (String × RawValue) := fun latest =>
  [("page", match getDec latest.entries "page" with
    | .prim "5" => .str "6"
    | _ => .undef)]

/-- A stale state for Scenario D: the caches still hold `page = 4` from an
older location, while the current location is `?page=5`. -/
def wStaleState : HookState where
  memoParamConfigMapRef := wConfigMap
  paramConfigMapRef := wConfigMap
  parsedQueryRef := ⟨99, [("page", .str "4")]⟩
  encodedValuesCacheRef := some ⟨2, [("page", .str "4")]⟩
  decodedValuesCacheRef := ⟨3, [("page", .prim "4")]⟩

theorem setQuery_functional_update_witness :
    (setQuery wParse "?page=5" wConfigMap (ChangesType.fn wIncrFn) (some "pushIn")
        wStaleState 0).2 =
      .ok ({ encodedChanges := [("page", .str "6")], updateType := some "pushIn" },
        { wStaleState with decodedValuesCacheRef := ⟨1, [("page", .prim "5")]⟩ }, 2) :=
  setQuery_functional_update wParse "?page=5" wConfigMap wIncrFn (some "pushIn")
    wStaleState 0 [("page", .str "5")]
    { encodedValues := ⟨0, [("page", .str "5")]⟩,
      decodedValues := ⟨1, [("page", .prim "5")]⟩ }
    wStaleState 2 (by rfl)

/-- Claim C10: in the functional-update path only the decoded-values cache
cell is written synchronously at call time; the memoized-config ref, the
parsed-query ref, the param-config-map ref and the encoded-values cell keep
their old contents, so the encoded-values cache may be stale relative to
the decoded-values cache until the next deferred commit. -/
theorem setQuery_functional_cache_cells (parse : String → EncodedQueryMap)
    (location : String) (cfg : QueryParamConfigMap)
    (f : DecodedQueryMap → List (String × RawValue)) (ut : Option String)
    (s : HookState) (n : Nat) (tr trB : List (String × RawValue)) (out : GLDVOutput)
    (sA : HookState) (nA : Nat) (call : SetLocationCall) (sB : HookState) (nB : Nat)
    (h : getLatestDecodedValues parse location cfg s n = (tr, .ok (out, sA, nA)))
    (h2 : setQuery parse location cfg (ChangesType.fn f) ut s n = (trB, .ok (call, sB, nB))) :
    sB.parsedQueryRef = s.parsedQueryRef ∧
      sB.paramConfigMapRef = s.paramConfigMapRef ∧
      sB.memoParamConfigMapRef = s.memoParamConfigMapRef ∧
      sB.encodedValuesCacheRef = s.encodedValuesCacheRef ∧
      sB.decodedValuesCacheRef = out.decodedValues := by
  have h2ok : (setQuery parse location cfg (ChangesType.fn f) ut s n).2 =
      .ok (call, sB, nB) := by rw [h2]
  rw [setQuery_fn_spec parse location cfg f ut s n tr out sA nA h] at h2ok
  simp only [Except.ok.injEq, Prod.mk.injEq] at h2ok
  rw [← h2ok.2.1]
  exact ⟨rfl, rfl, rfl, rfl, rfl⟩

theorem setQuery_functional_cache_cells_witness :
    wStaleState.parsedQueryRef =
        (RefMap.mk 99 [("page", RawValue.str "4")] : EncodedQueryMap) ∧
      ({ wStaleState with
          decodedValuesCacheRef := (⟨1, [("page", .prim "5")]⟩ : DecodedQueryMap)
        } : HookState).encodedValuesCacheRef = wStaleState.encodedValuesCacheRef := by
  have hmain := setQuery_functional_cache_cells wParse "?page=5" wConfigMap wIncrFn
    (some "pushIn") wStaleState 0 [("page", .str "5")] [("page", .str "5")]
    { encodedValues := ⟨0, [("page", .str "5")]⟩,
      decodedValues := ⟨1, [("page", .prim "5")]⟩ }
    wStaleState 2
    { encodedChanges := [("page", .str "6")], updateType := some "pushIn" }
    { wStaleState with decodedValuesCacheRef := ⟨1, [("page", .prim "5")]⟩ } 2
    (by rfl) (by rfl)
  exact ⟨rfl, hmain.2.2.2.1⟩

/-- Looking up an encoded entry: each entry of the changes mapping is
encoded through the codec of its own parameter name. -/
theorem encodeQueryParams_lookup (cfg : QueryParamConfigMap) (m : List (String × JSVal))
    (k : String) :
    lookupOpt (encodeQueryParams cfg m) k = (lookupOpt m k).map (fun v =>
      match lookupOpt cfg.entries k with
      | some c2 => c2.encode v
      | none => RawValue.undef) := by
  induction m with
  | nil => simp [encodeQueryParams, lookupOpt]
  | cons p rest ih =>
    by_cases hpk : p.1 == k
    · have hk : p.1 = k := by simpa using hpk
      simp [encodeQueryParams, lookupOpt, List.find?, hpk, hk]
    · simpa [encodeQueryParams, lookupOpt, List.find?, hpk] using ih

/-- Claim C6: the plain-mapping path of the setter.  Every entry of the
partial decoded-values mapping is encoded through the corresponding
parameter's codec `encode` using the current (captured, memoized) param
config map, and the resulting encoded partial mapping together with the
update-type hint is forwarded to the location provider; the cache and
counter are untouched. -/
theorem setQuery_plain_encodes (parse : String → EncodedQueryMap) (location : String)
    (cfg : QueryParamConfigMap) (m : List (String × JSVal)) (ut : Option String)
    (s : HookState) (n : Nat) (k : String) (v : JSVal) (c : QueryParamConfig)
    (hm : lookupOpt m k = some v) (hc : lookupOpt cfg.entries k = some c) :
    (setQuery parse location cfg (ChangesType.plain m) ut s n).2 =
        .ok ({ encodedChanges := encodeQueryParams cfg m, updateType := ut }, s, n) ∧
      lookupOpt (encodeQueryParams cfg m) k = some (c.encode v) := by
  refine ⟨rfl, ?_⟩
  rw [encodeQueryParams_lookup, hm]
  simp [hc]

theorem setQuery_plain_encodes_witness :
    (setQuery wParse "?page=3" wConfigMap (ChangesType.plain [("page", .prim "4")])
          (some "pushIn") wState1 2).2 =
        .ok ({ encodedChanges := encodeQueryParams wConfigMap [("page", .prim "4")],
               updateType := some "pushIn" }, wState1, 2) ∧
      lookupOpt (encodeQueryParams wConfigMap [("page", .prim "4")]) "page" =
        some (RawValue.str "4") ∧
      renderedValues (useQueryParams wParse "?page=3" wConfigMap wState0 0) = some wDec1 := by
  have hmain := setQuery_plain_encodes wParse "?page=3" wConfigMap [("page", .prim "4")]
    (some "pushIn") wState1 2 "page" (.prim "4") wPageConfig (by rfl) (by rfl)
  exact ⟨hmain.1, hmain.2, by rfl⟩

/-- Whether the decode trace contains an invocation for parameter `k`. -/
def hasParamKey (tr : List (String × RawValue)) (k : String) : Bool :=
  tr.any (fun p => p.1 == k)

/-- Counterexample configs for the re-decode claim: the same parameter
under two config objects with different identities (e.g. freshly created
decode/encode functions), so the config maps are not shallow-equal. -/
def cxConfigA : QueryParamConfig where
  id := 10
  decode := fun _ n => .ok (.undef, n)
  encode := fun _ => (.undef)

def cxConfigB : QueryParamConfig where
  id := 11
  decode := fun _ n => .ok (.undef, n)
  encode := fun _ => (.undef)

def cxMapA : QueryParamConfigMap := ⟨1, [("p", cxConfigA)]⟩

def cxMapB : QueryParamConfigMap := ⟨2, [("p", cxConfigB)]⟩

def cxParse : String → EncodedQueryMap := fun _ => ⟨5, [("p", .str "3")]⟩

/-- A cached state matching the current location, with the old config map
cached. -/
def cxState : HookState where
  memoParamConfigMapRef := cxMapA
  paramConfigMapRef := cxMapA
  parsedQueryRef := ⟨5, [("p", .str "3")]⟩
  encodedValuesCacheRef := some ⟨6, [("p", .str "3")]⟩
  decodedValuesCacheRef := ⟨7, [("p", .prim "3")]⟩

/-- Claim C2 counterexample: the claim states decode is re-invoked iff the
raw value changed OR the config map changed overall.  Here the config map
changed (not shallow-equal to the cached one: fresh config object identity)
while the raw value for `p` is unchanged — the evaluation takes the
recompute path but reuses the cached decoded value, so decode is NOT
invoked although the claimed right-hand side holds. -/
theorem useQueryParams_redecode_iff_cex :
    ¬ ((hasParamKey (getLatestDecodedValues cxParse "q" cxMapB cxState 0).1 "p" = true) ↔
      (rawShallowEqual
          (getRaw ((cxState.encodedValuesCacheRef.map RefMap.entries).getD []) "p")
          (getRaw (cxParse "q").entries "p") = false ∨
        configShallowEqual cxState.paramConfigMapRef cxMapB = false)) := by
  decide

/-- Claim C2 (amended): a parameter's decode function is re-invoked during
an evaluation iff the evaluation takes the recompute path (new parsed query
reference, config map not shallow-equal to the cached one, or no encoded
snapshot yet) AND that parameter's raw encoded value is not shallow-equal
to the cached raw encoded value.  A config-map change alone does not
re-invoke decode for parameters whose raw value is unchanged. -/
theorem useQueryParams_redecode_iff (parse : String → EncodedQueryMap) (location : String)
    (cfg : QueryParamConfigMap) (s : HookState) (n : Nat)
    (x : GLDVOutput × HookState × Nat) (k : String)
    (h : (getLatestDecodedValues parse location cfg s n).2 = .ok x)
    (hk : keyMem cfg.entries k = true) :
    ((∃ r, (k, r) ∈ (getLatestDecodedValues parse location cfg s n).1) ↔
      (¬ shortCircuitCond parse location cfg s ∧
        rawShallowEqual
          (getRaw ((s.encodedValuesCacheRef.map RefMap.entries).getD []) k)
          (getRaw (parse location).entries k) = false)) := by
  by_cases hsc : shortCircuitCond parse location cfg s
  · rw [gldv_shortCircuit parse location cfg s n hsc]
    simp [hsc]
  · rw [gldv_recompute parse location cfg s n hsc] at h ⊢
    constructor
    · rintro ⟨r, hr⟩
      exact ⟨hsc, (decodeLoop_trace hr).2.2⟩
    · rintro ⟨_, hchg⟩
      rcases except_map_ok h with ⟨y, hy, hx⟩
      exact ⟨getRaw (parse location).entries k, decodeLoop_traced_of_changed hy hk hchg⟩

theorem useQueryParams_redecode_iff_witness :
    ((∃ r, ("page", r) ∈ (getLatestDecodedValues wParse "?page=3" wConfigMap wState0 0).1) ↔
      (¬ shortCircuitCond wParse "?page=3" wConfigMap wState0 ∧
        rawShallowEqual
          (getRaw ((wState0.encodedValuesCacheRef.map RefMap.entries).getD []) "page")
          (getRaw (wParse "?page=3").entries "page") = false)) :=
  useQueryParams_redecode_iff wParse "?page=3" wConfigMap wState0 0
    ({ encodedValues := ⟨0, [("page", .str "3")]⟩, decodedValues := wDec1 }, wState0, 2)
    "page" (by rfl) (by decide)

/-- A parser that yields a query with no parameters at all. -/
def c5AbsentParse : String → EncodedQueryMap := fun _ => ⟨9, []⟩

/-- A first-render state (no encoded snapshot yet, empty decoded cache) for
a location whose query lacks the configured parameter. -/
def c5AbsentState : HookState where
  memoParamConfigMapRef := wConfigMap
  paramConfigMapRef := wConfigMap
  parsedQueryRef := ⟨9, []⟩
  encodedValuesCacheRef := none
  decodedValuesCacheRef := ⟨0, []⟩

/-- Claim C5 counterexample: `page` is configured and its raw value is
missing, yet the evaluation never hands anything to its decode function:
the missing value (`undefined`) is shallow-equal to the missing cache entry
(`undefined`), so the reuse branch is taken and the decoded value comes out
as the cached `undefined` without any decode invocation.  The decode trace
is empty. -/
theorem useQueryParams_missing_decode_cex :
    keyMem wConfigMap.entries "page" = true ∧
      getRaw (c5AbsentParse "").entries "page" = RawValue.undef ∧
      (getLatestDecodedValues c5AbsentParse "" wConfigMap c5AbsentState 0).1 = [] ∧
      ((getLatestDecodedValues c5AbsentParse "" wConfigMap c5AbsentState 0).2).toOption.map
          (fun x => lookupOpt x.1.decodedValues.entries "page") = some (some JSVal.undef) := by
  decide

/-- Claim C5 (amended): when a parameter is decoded, the evaluation hands
the raw parsed value (including `undefined` for a missing parameter) to the
decode function as-is; a parameter whose raw value is shallow-equal to the
cached raw value (e.g. absent now and absent in the cache, as on a first
evaluation) is not decoded at all, its cached decoded value being reused;
and a failure thrown by any decode aborts the whole evaluation and
propagates uncaught to the hook's caller — there is no partial result. -/
theorem useQueryParams_decode_error_policy (parse : String → EncodedQueryMap)
    (location : String) (input : QueryParamConfigMap) (s : HookState) (n : Nat) :
    (∀ k r, (k, r) ∈ (useQueryParams parse location input s n).1 →
        r = getRaw (parse location).entries k) ∧
      (∀ k, rawShallowEqual
          (getRaw ((s.encodedValuesCacheRef.map RefMap.entries).getD []) k)
          (getRaw (parse location).entries k) = true →
        ∀ r, (k, r) ∉ (useQueryParams parse location input s n).1) ∧
      (∀ e, (getLatestDecodedValues parse location
            (usePreviousIfShallowEqual s.memoParamConfigMapRef input) s n).2 =
          Except.error e →
        (useQueryParams parse location input s n).2 = Except.error e) := by
  have htr : (useQueryParams parse location input s n).1 =
      (getLatestDecodedValues parse location
        (usePreviousIfShallowEqual s.memoParamConfigMapRef input) s n).1 := rfl
  refine ⟨?_, ?_, ?_⟩
  · intro k r hmem
    rw [htr] at hmem
    by_cases hsc : shortCircuitCond parse location
        (usePreviousIfShallowEqual s.memoParamConfigMapRef input) s
    · rw [gldv_shortCircuit _ _ _ _ _ hsc] at hmem
      simp at hmem
    · rw [gldv_recompute _ _ _ _ _ hsc] at hmem
      exact (decodeLoop_trace hmem).2.1
  · intro k hk r hmem
    rw [htr] at hmem
    by_cases hsc : shortCircuitCond parse location
        (usePreviousIfShallowEqual s.memoParamConfigMapRef input) s
    · rw [gldv_shortCircuit _ _ _ _ _ hsc] at hmem
      simp at hmem
    · rw [gldv_recompute _ _ _ _ _ hsc] at hmem
      exact decodeLoop_not_traced hk r hmem
  · intro e herr
    simp only [useQueryParams]
    rw [herr]
    rfl

/-- A codec whose decode always throws. -/
def c5FailConfig : QueryParamConfig where
  id := 12
  decode := fun _ _ => .error "bad"
  encode := fun _ => (.undef)

def c5FailMap : QueryParamConfigMap := ⟨3, [("q", c5FailConfig)]⟩

def c5FailParse : String → EncodedQueryMap := fun _ => ⟨8, [("q", .str "x")]⟩

def c5FailState : HookState where
  memoParamConfigMapRef := c5FailMap
  paramConfigMapRef := c5FailMap
  parsedQueryRef := ⟨8, [("q", .str "x")]⟩
  encodedValuesCacheRef := none
  decodedValuesCacheRef := ⟨0, []⟩

theorem useQueryParams_decode_error_policy_witness :
    (useQueryParams c5FailParse "" c5FailMap c5FailState 0).2 = Except.error "bad" ∧
      RawValue.str "x" = getRaw (c5FailParse "").entries "q" := by
  have hmain := useQueryParams_decode_error_policy c5FailParse "" c5FailMap c5FailState 0
  exact ⟨hmain.2.2 "bad" (by rfl), hmain.1 "q" (RawValue.str "x") (by decide)⟩

theorem keyMem_eq_of_keySub {V W : Type} {a : List (String × V)} {b : List (String × W)}
    (h1 : keySub a b = true) (h2 : keySub b a = true) :
    ∀ k, keyMem a k = keyMem b k := by
  intro k
  by_cases ha : keyMem a k = true
  · rw [ha, keySub_keyMem h1 ha]
  · have hb : ¬ keyMem b k = true := fun hc => ha (keySub_keyMem h2 hc)
    simp only [Bool.not_eq_true] at ha hb
    rw [ha, hb]

theorem keyMem_map_entries {V W : Type} (l : List (String × V)) (g : String → W)
    (k : String) :
    keyMem (l.map (fun p => (p.1, g p.1))) k = keyMem l k := by
  simp [keyMem, lookupOpt_map_entries]

/-- The decoded cache and (when present) the encoded snapshot cover exactly
the keys of the cached param config map.  This holds for every state the
hook can actually reach: the caches start empty together with an absent
encoded snapshot (which forces the first evaluation down the recompute
path), and every recompute rebuilds both containers over the configured
keys. -/
def decKeysConsistent (s : HookState) : Bool :=
  keySub s.decodedValuesCacheRef.entries s.paramConfigMapRef.entries &&
    keySub s.paramConfigMapRef.entries s.decodedValuesCacheRef.entries &&
    (match s.encodedValuesCacheRef with
     | none => true
     | some e => keySub e.entries s.paramConfigMapRef.entries &&
         keySub s.paramConfigMapRef.entries e.entries)

/-- Claim C9: an evaluation's encoded-values and decoded-values containers
have exactly the keys of the param config map it was given, and only
configured parameters are ever decoded — a parameter present in the parsed
query but absent from the config map never appears. -/
theorem getLatestDecodedValues_keys_exact (parse : String → EncodedQueryMap)
    (location : String) (cfg : QueryParamConfigMap) (s : HookState) (n : Nat)
    (x : GLDVOutput × HookState × Nat)
    (hinv : decKeysConsistent s = true)
    (h : (getLatestDecodedValues parse location cfg s n).2 = .ok x) :
    (∀ k, keyMem x.1.encodedValues.entries k = keyMem cfg.entries k) ∧
      (∀ k, keyMem x.1.decodedValues.entries k = keyMem cfg.entries k) ∧
      (∀ k r, (k, r) ∈ (getLatestDecodedValues parse location cfg s n).1 →
        keyMem cfg.entries k = true) := by
  unfold decKeysConsistent at hinv
  simp only [Bool.and_eq_true] at hinv
  obtain ⟨⟨hd1, hd2⟩, hmatch⟩ := hinv
  by_cases hsc : shortCircuitCond parse location cfg s
  · obtain ⟨hpq, hcfgsc, hsome⟩ := hsc
    rcases Option.isSome_iff_exists.mp hsome with ⟨e, he⟩
    have hcfgkeys : ∀ k, keyMem s.paramConfigMapRef.entries k = keyMem cfg.entries k :=
      keyMem_eq_of_map_eq ((configShallowEqual_iff _ _).mp hcfgsc)
    rw [gldv_shortCircuit parse location cfg s n ⟨hpq, hcfgsc, hsome⟩] at h ⊢
    simp only [Except.ok.injEq] at h
    rw [← h]
    rw [he] at hmatch
    simp only [Bool.and_eq_true] at hmatch
    refine ⟨?_, ?_, ?_⟩
    · intro k
      rw [he]
      simp only [Option.getD_some]
      rw [← hcfgkeys k]
      exact keyMem_eq_of_keySub hmatch.1 hmatch.2 k
    · intro k
      rw [← hcfgkeys k]
      exact keyMem_eq_of_keySub hd1 hd2 k
    · intro k r hmem
      simp at hmem
  · rw [gldv_recompute parse location cfg s n hsc] at h ⊢
    rcases except_map_ok h with ⟨y, hy, hx⟩
    have henc := decodeLoop_enc hy
    have hdk := decodeLoop_dec_keys hy
    refine ⟨?_, ?_, ?_⟩
    · intro k
      rw [hx]
      show keyMem y.1 k = _
      rw [henc, keyMem_map_entries]
    · intro k
      rw [hx]
      cases hcase : decShallowEqual s.decodedValuesCacheRef ⟨y.2.2 + 1, y.2.1⟩ with
      | false =>
        simp only [hcase, Bool.not_false, if_true]
        exact hdk k
      | true =>
        simp only [hcase, Bool.not_true, Bool.false_eq_true, if_false]
        have hlk := (decShallowEqual_iff s.decodedValuesCacheRef ⟨y.2.2 + 1, y.2.1⟩).mp hcase k
        have hkm2 : keyMem s.decodedValuesCacheRef.entries k = keyMem y.2.1 k := by
          simp only [keyMem]
          exact congrArg Option.isSome hlk
        rw [hkm2]
        exact hdk k
    · intro k r hmem
      exact (decodeLoop_trace hmem).1

theorem getLatestDecodedValues_keys_exact_witness :
    keyMem (⟨0, [("page", RawValue.str "3")]⟩ : EncodedQueryMap).entries "page" =
        keyMem wConfigMap.entries "page" ∧
      keyMem wDec1.entries "page" = keyMem wConfigMap.entries "page" := by
  have hmain := getLatestDecodedValues_keys_exact wParse "?page=3" wConfigMap wState1 2
    ({ encodedValues := ⟨0, [("page", .str "3")]⟩, decodedValues := wDec1 }, wState1, 2)
    (by decide) (by rfl)
  exact ⟨hmain.1 "page", hmain.2.1 "page"⟩

/-- For states the hook can reach, the encoded snapshot (when present)
agrees with the cached parsed query on every cached configured parameter:
the first evaluation, forced down the recompute path by the absent
snapshot, rebuilds the snapshot from the parsed query, and later commits
only replace it by shallow-equal or freshly rebuilt snapshots. -/
def encCacheConsistent (s : HookState) : Bool :=
  match s.encodedValuesCacheRef with
  | none => true
  | some e => s.paramConfigMapRef.entries.all
      (fun p => getRaw e.entries p.1 == getRaw s.parsedQueryRef.entries p.1)

theorem encCacheConsistent_getRaw {s : HookState} {e : EncodedQueryMap}
    (hinv : encCacheConsistent s = true) (he : s.encodedValuesCacheRef = some e)
    {k : String} (hk : keyMem s.paramConfigMapRef.entries k = true) :
    getRaw e.entries k = getRaw s.parsedQueryRef.entries k := by
  unfold encCacheConsistent at hinv
  rw [he] at hinv
  rcases (keyMem_iff _ _).mp hk with ⟨p, hp, hpk⟩
  have hall := List.all_eq_true.mp hinv p hp
  rw [hpk] at hall
  simpa using hall

/-- Claim C4: selective redecode.  Across two consecutive evaluations in
which only parameter `b`'s raw encoded value changes (every other
configured parameter's raw value unchanged, config map shallow-equal), the
decoded value of any other configured parameter `a` in the new result is
reference-identical (`Object.is`-equal in the model) to its value in the
previous result, and `a`'s decode function is not invoked again. -/
theorem useQueryParams_selective_redecode
    (parse : String → EncodedQueryMap) (location1 location2 : String)
    (input1 input2 : QueryParamConfigMap) (s0 : HookState) (n0 : Nat)
    (tr1 tr2 : List (String × RawValue)) (d1 d2 : DecodedQueryMap)
    (s1 s2 : HookState) (n1 n2 : Nat) (a b : String)
    (hinv : encCacheConsistent s0 = true)
    (h1 : useQueryParams parse location1 input1 s0 n0 = (tr1, .ok (d1, s1, n1)))
    (hcfg : configShallowEqual input2 input1 = true)
    (hraw : ∀ k, k ≠ b →
      getRaw (parse location2).entries k = getRaw (parse location1).entries k)
    (hab : a ≠ b)
    (ha : keyMem input2.entries a = true)
    (h2 : useQueryParams parse location2 input2 s1 n1 = (tr2, .ok (d2, s2, n2))) :
    getDec d2.entries a = getDec d1.entries a ∧ ∀ r, (a, r) ∉ tr2 := by
  rcases render_inv h1 with ⟨out1, hg1, hd1, hs1⟩
  have hg1ok : (getLatestDecodedValues parse location1
      (usePreviousIfShallowEqual s0.memoParamConfigMapRef input1) s0 n0).2 =
      .ok (out1, s0, n1) := by rw [hg1]
  have hdec1 : s1.decodedValuesCacheRef = d1 := by
    rw [hs1, hd1]
    exact commit_decoded (gldv_decoded_cases hg1ok)
  rcases render_inv h2 with ⟨out2, hg2, hd2, hs2⟩
  have hg2ok : (getLatestDecodedValues parse location2
      (usePreviousIfShallowEqual s1.memoParamConfigMapRef input2) s1 n1).2 =
      .ok (out2, s1, n2) := by rw [hg2]
  have htr2 : (getLatestDecodedValues parse location2
      (usePreviousIfShallowEqual s1.memoParamConfigMapRef input2) s1 n1).1 = tr2 := by
    rw [hg2]
  have ham2 : keyMem (usePreviousIfShallowEqual s1.memoParamConfigMapRef input2).entries a =
      true := by
    rw [keyMem_eq_of_map_eq (usePrev_ids s1.memoParamConfigMapRef input2) a]
    exact ha
  have hmmids : ∀ k,
      (lookupOpt (usePreviousIfShallowEqual s0.memoParamConfigMapRef input1).entries k).map
        QueryParamConfig.id =
      (lookupOpt (usePreviousIfShallowEqual s1.memoParamConfigMapRef input2).entries k).map
        QueryParamConfig.id := by
    intro k
    rw [usePrev_ids s0.memoParamConfigMapRef input1 k,
      ← (configShallowEqual_iff input2 input1).mp hcfg k,
      ← usePrev_ids s1.memoParamConfigMapRef input2 k]
  have ham1 : keyMem (usePreviousIfShallowEqual s0.memoParamConfigMapRef input1).entries a =
      true := by
    rw [keyMem_eq_of_map_eq hmmids a]
    exact ham2
  by_cases hsc2 : shortCircuitCond parse location2
      (usePreviousIfShallowEqual s1.memoParamConfigMapRef input2) s1
  · have htrnil : tr2 = [] := by
      rw [← htr2, gldv_shortCircuit parse location2 _ s1 n1 hsc2]
    rw [gldv_shortCircuit parse location2 _ s1 n1 hsc2] at hg2ok
    simp only [Except.ok.injEq, Prod.mk.injEq] at hg2ok
    constructor
    · rw [hd2, ← hg2ok.1]
      show getDec s1.decodedValuesCacheRef.entries a = _
      rw [hdec1]
    · intro r hmem
      rw [htrnil] at hmem
      simp at hmem
  · obtain ⟨E, hEeq0, hElook⟩ := commit_enc_lookups input1
      (usePreviousIfShallowEqual s0.memoParamConfigMapRef input1) (parse location1)
      out1.encodedValues out1.decodedValues s0
    have hEeq1 : s1.encodedValuesCacheRef = some E := by rw [hs1]; exact hEeq0
    have hcra : getRaw ((s1.encodedValuesCacheRef.map RefMap.entries).getD []) a =
        getRaw (parse location2).entries a := by
      rw [hEeq1]
      simp only [Option.map_some', Option.getD_some]
      have hEa : getRaw E.entries a = getRaw out1.encodedValues.entries a := by
        unfold getRaw
        rw [hElook a]
      rw [hEa, hraw a hab]
      by_cases hsc1 : shortCircuitCond parse location1
          (usePreviousIfShallowEqual s0.memoParamConfigMapRef input1) s0
      · obtain ⟨hpq1, hcfg1, hsome1⟩ := hsc1
        rcases Option.isSome_iff_exists.mp hsome1 with ⟨e0, he0⟩
        rw [gldv_shortCircuit parse location1 _ s0 n0 ⟨hpq1, hcfg1, hsome1⟩] at hg1ok
        simp only [Except.ok.injEq, Prod.mk.injEq] at hg1ok
        rw [← hg1ok.1]
        show getRaw (s0.encodedValuesCacheRef.getD ⟨0, []⟩ : EncodedQueryMap).entries a = _
        rw [he0]
        simp only [Option.getD_some]
        have hka : keyMem s0.paramConfigMapRef.entries a = true := by
          rw [keyMem_eq_of_map_eq ((configShallowEqual_iff _ _).mp hcfg1) a]
          exact ham1
        rw [encCacheConsistent_getRaw hinv he0 hka, hpq1]
      · rw [gldv_recompute parse location1 _ s0 n0 hsc1] at hg1ok
        rcases except_map_ok hg1ok with ⟨y, hy, hout⟩
        simp only [Prod.mk.injEq] at hout
        rw [hout.1]
        show getRaw y.1 a = _
        unfold getRaw
        rw [decodeLoop_enc hy, lookupOpt_map_entries]
        rcases Option.isSome_iff_exists.mp ham1 with ⟨c, hc⟩
        rw [hc]
        rfl
    have hcra2 : rawShallowEqual
        (getRaw ((s1.encodedValuesCacheRef.map RefMap.entries).getD []) a)
        (getRaw (parse location2).entries a) = true := (rawShallowEqual_iff _ _).mpr hcra
    have hnt : ∀ r, (a, r) ∉ tr2 := by
      intro r hmem
      rw [← htr2, gldv_recompute parse location2 _ s1 n1 hsc2] at hmem
      exact decodeLoop_not_traced hcra2 r hmem
    refine ⟨?_, hnt⟩
    rw [gldv_recompute parse location2 _ s1 n1 hsc2] at hg2ok
    rcases except_map_ok hg2ok with ⟨y2, hy2, hout2⟩
    simp only [Prod.mk.injEq] at hout2
    have hlk2 := decodeLoop_dec_at hcra2 hy2
    rcases Option.isSome_iff_exists.mp ham2 with ⟨c2, hc2⟩
    rw [hc2] at hlk2
    have hval : out2.decodedValues =
        (if !(decShallowEqual s1.decodedValuesCacheRef ⟨y2.2.2 + 1, y2.2.1⟩) then
          (⟨y2.2.2 + 1, y2.2.1⟩ : DecodedQueryMap)
        else s1.decodedValuesCacheRef) := by
      rw [hout2.1]
    rw [hd2, hval]
    cases hcase : decShallowEqual s1.decodedValuesCacheRef ⟨y2.2.2 + 1, y2.2.1⟩ with
    | true =>
      simp only [hcase, Bool.not_true, Bool.false_eq_true, if_false]
      rw [hdec1]
    | false =>
      simp only [hcase, Bool.not_false, if_true]
      show (lookupOpt y2.2.1 a).getD JSVal.undef = getDec d1.entries a
      rw [hlk2, ← hdec1]
      rfl

def w2ConfigA : QueryParamConfig where
  id := 20
  decode := fun r n => .ok ((match r with | .str v => .prim v | _ => .undef), n)
  encode := fun v => match v with | .prim v2 => .str v2 | _ => (.undef)

def w2ConfigB : QueryParamConfig where
  id := 21
  decode := fun r n => .ok ((match r with | .str v => .prim v | _ => .undef), n)
  encode := fun v => match v with | .prim v2 => .str v2 | _ => (.undef)

/-- Two-parameter config map for the selective-redecode scenario. -/
def w2Map : QueryParamConfigMap := ⟨4, [("a", w2ConfigA), ("b", w2ConfigB)]⟩

def w2Parse : String → EncodedQueryMap := fun loc =>
  if loc = "?a=1&b=2" then ⟨110, [("a", .str "1"), ("b", .str "2")]⟩
  else if loc = "?a=1&b=9" then ⟨111, [("a", .str "1"), ("b", .str "9")]⟩
  else ⟨112, []⟩

def w2State0 : HookState where
  memoParamConfigMapRef := w2Map
  paramConfigMapRef := w2Map
  parsedQueryRef := ⟨110, [("a", .str "1"), ("b", .str "2")]⟩
  encodedValuesCacheRef := none
  decodedValuesCacheRef := ⟨0, []⟩

def w2Dec1 : DecodedQueryMap := ⟨1, [("a", .prim "1"), ("b", .prim "2")]⟩

def w2State1 : HookState where
  memoParamConfigMapRef := w2Map
  paramConfigMapRef := w2Map
  parsedQueryRef := ⟨110, [("a", .str "1"), ("b", .str "2")]⟩
  encodedValuesCacheRef := some ⟨0, [("a", .str "1"), ("b", .str "2")]⟩
  decodedValuesCacheRef := w2Dec1

def w2Dec2 : DecodedQueryMap := ⟨3, [("a", .prim "1"), ("b", .prim "9")]⟩

def w2State2 : HookState where
  memoParamConfigMapRef := w2Map
  paramConfigMapRef := w2Map
  parsedQueryRef := ⟨111, [("a", .str "1"), ("b", .str "9")]⟩
  encodedValuesCacheRef := some ⟨2, [("a", .str "1"), ("b", .str "9")]⟩
  decodedValuesCacheRef := w2Dec2

theorem useQueryParams_selective_redecode_witness :
    getDec w2Dec2.entries "a" = getDec w2Dec1.entries "a" ∧
      ("a", RawValue.str "9") ∉ [("b", RawValue.str "9")] := by
  have hraw : ∀ k, k ≠ "b" →
      getRaw (w2Parse "?a=1&b=9").entries k = getRaw (w2Parse "?a=1&b=2").entries k := by
    intro k hk
    have hb : ("b" == k) = false := beq_eq_false_iff_ne.mpr (fun h => hk h.symm)
    by_cases hka : ("a" == k) = true
    · simp [w2Parse, getRaw, lookupOpt, List.find?, hka]
    · have hka2 : ("a" == k) = false := by simpa using hka
      simp [w2Parse, getRaw, lookupOpt, List.find?, hka2, hb]
  have hmain := useQueryParams_selective_redecode w2Parse "?a=1&b=2" "?a=1&b=9"
    w2Map w2Map w2State0 0
    [("a", RawValue.str "1"), ("b", RawValue.str "2")] [("b", RawValue.str "9")]
    w2Dec1 w2Dec2 w2State1 w2State2 2 4 "a" "b"
    (by decide) (by rfl) (by decide) hraw (by decide) (by decide) (by rfl)
  exact ⟨hmain.1, hmain.2 (RawValue.str "9")⟩

theorem keySub_of_keyMem_eq {V W : Type} {a : List (String × V)} {b : List (String × W)}
    (h : ∀ k, keyMem a k = keyMem b k) : keySub a b = true := by
  refine List.all_eq_true.mpr (fun p hp => ?_)
  rw [← h p.1]
  exact (keyMem_iff _ _).mpr ⟨p, hp, rfl⟩

/-- The state the hook's refs hold when a consumer first mounts (source
lines 38-45): config and parsed query cached from the first render, no
encoded snapshot, empty decoded cache. -/
def initialHookState (parse : String → EncodedQueryMap) (location : String)
    (input : QueryParamConfigMap) : HookState where
  memoParamConfigMapRef := input
  paramConfigMapRef := input
  parsedQueryRef := parse location
  encodedValuesCacheRef := none
  decodedValuesCacheRef := ⟨0, []⟩

theorem initialHookState_encConsistent (parse : String → EncodedQueryMap)
    (location : String) (input : QueryParamConfigMap) :
    encCacheConsistent (initialHookState parse location input) = true := rfl

/-- Every successful evaluation preserves `encCacheConsistent`, so the
invariant hypothesis of the selective-redecode theorem holds in every state
the hook can reach (it holds vacuously in the initial state, where there is
no encoded snapshot). -/
theorem render_encCacheConsistent {parse : String → EncodedQueryMap} {location : String}
    {input : QueryParamConfigMap} {s : HookState} {n : Nat}
    {tr : List (String × RawValue)} {d : DecodedQueryMap} {s1 : HookState} {n1 : Nat}
    (hinv : encCacheConsistent s = true)
    (h : useQueryParams parse location input s n = (tr, .ok (d, s1, n1))) :
    encCacheConsistent s1 = true := by
  rcases render_inv h with ⟨out, hg, hd, hs1⟩
  have hgok : (getLatestDecodedValues parse location
      (usePreviousIfShallowEqual s.memoParamConfigMapRef input) s n).2 =
      .ok (out, s, n1) := by rw [hg]
  by_cases hsc : shortCircuitCond parse location
      (usePreviousIfShallowEqual s.memoParamConfigMapRef input) s
  · obtain ⟨hpq, hcfgsc, hsome⟩ := hsc
    rcases Option.isSome_iff_exists.mp hsome with ⟨e, he⟩
    rw [gldv_shortCircuit parse location _ s n ⟨hpq, hcfgsc, hsome⟩] at hgok
    simp only [Except.ok.injEq, Prod.mk.injEq] at hgok
    have hencout : out.encodedValues = e := by
      rw [← hgok.1]
      show s.encodedValuesCacheRef.getD ⟨0, []⟩ = e
      rw [he]
      rfl
    have h1 : s1.parsedQueryRef = s.parsedQueryRef := by
      rw [hs1]
      simp only [commitUpdates]
      rw [← hpq]
      simp [rawMapShallowEqual_refl]
    have h2 : s1.paramConfigMapRef = s.paramConfigMapRef := by
      rw [hs1]
      simp only [commitUpdates]
      simp [hcfgsc]
    have h3 : s1.encodedValuesCacheRef = some e := by
      rw [hs1]
      simp only [commitUpdates]
      rw [he, hencout]
      simp [rawMapShallowEqual_refl]
    unfold encCacheConsistent
    rw [h3, h2, h1]
    unfold encCacheConsistent at hinv
    rw [he] at hinv
    exact hinv
  · obtain ⟨E, hEeq0, hElook⟩ := commit_enc_lookups input
      (usePreviousIfShallowEqual s.memoParamConfigMapRef input) (parse location)
      out.encodedValues out.decodedValues s
    have hE1 : s1.encodedValuesCacheRef = some E := by rw [hs1]; exact hEeq0
    rw [gldv_recompute parse location _ s n hsc] at hgok
    rcases except_map_ok hgok with ⟨y, hy, hout⟩
    simp only [Prod.mk.injEq] at hout
    have hy1 := decodeLoop_enc hy
    unfold encCacheConsistent
    rw [hE1]
    refine List.all_eq_true.mpr (fun p hp => ?_)
    have hpk : keyMem s1.paramConfigMapRef.entries p.1 = true :=
      (keyMem_iff _ _).mpr ⟨p, hp, rfl⟩
    have hids : ∀ k, (lookupOpt s1.paramConfigMapRef.entries k).map QueryParamConfig.id =
        (lookupOpt (usePreviousIfShallowEqual s.memoParamConfigMapRef input).entries k).map
          QueryParamConfig.id := by
      intro k
      rw [hs1]
      exact commit_cfg_ids _ _ _ _ _ _ k
    have hkmemo : keyMem (usePreviousIfShallowEqual s.memoParamConfigMapRef input).entries
        p.1 = true := by
      rw [← keyMem_eq_of_map_eq hids p.1]
      exact hpk
    have hstep1 : getRaw E.entries p.1 = getRaw out.encodedValues.entries p.1 := by
      unfold getRaw
      rw [hElook p.1]
    have hstep2 : getRaw out.encodedValues.entries p.1 =
        getRaw (parse location).entries p.1 := by
      rw [hout.1]
      show getRaw y.1 p.1 = _
      unfold getRaw
      rw [hy1, lookupOpt_map_entries]
      rcases Option.isSome_iff_exists.mp hkmemo with ⟨c, hc⟩
      rw [hc]
      rfl
    have hstep3 : getRaw s1.parsedQueryRef.entries p.1 =
        getRaw (parse location).entries p.1 := by
      unfold getRaw
      rw [hs1, commit_parsed_lookups input _ (parse location)
        out.encodedValues out.decodedValues s p.1]
    rw [hstep1, hstep2, hstep3]
    simp

/-- Every successful evaluation establishes `decKeysConsistent` when the
encoded snapshot is still absent (as in the initial state, which forces the
recompute path) and preserves it afterwards, so the invariant hypothesis of
the exact-keys theorem holds in every state the hook can reach after its
first evaluation. -/
theorem render_decKeysConsistent {parse : String → EncodedQueryMap} {location : String}
    {input : QueryParamConfigMap} {s : HookState} {n : Nat}
    {tr : List (String × RawValue)} {d : DecodedQueryMap} {s1 : HookState} {n1 : Nat}
    (hpre : s.encodedValuesCacheRef = none ∨ decKeysConsistent s = true)
    (h : useQueryParams parse location input s n = (tr, .ok (d, s1, n1))) :
    decKeysConsistent s1 = true := by
  rcases render_inv h with ⟨out, hg, hd, hs1⟩
  have hgok : (getLatestDecodedValues parse location
      (usePreviousIfShallowEqual s.memoParamConfigMapRef input) s n).2 =
      .ok (out, s, n1) := by rw [hg]
  by_cases hsc : shortCircuitCond parse location
      (usePreviousIfShallowEqual s.memoParamConfigMapRef input) s
  · obtain ⟨hpq, hcfgsc, hsome⟩ := hsc
    rcases Option.isSome_iff_exists.mp hsome with ⟨e, he⟩
    rcases hpre with hnone | hinv
    · rw [hnone] at he
      simp at he
    rw [gldv_shortCircuit parse location _ s n ⟨hpq, hcfgsc, hsome⟩] at hgok
    simp only [Except.ok.injEq, Prod.mk.injEq] at hgok
    have hencout : out.encodedValues = e := by
      rw [← hgok.1]
      show s.encodedValuesCacheRef.getD ⟨0, []⟩ = e
      rw [he]
      rfl
    have hdecout : out.decodedValues = s.decodedValuesCacheRef := by rw [← hgok.1]
    have h2 : s1.paramConfigMapRef = s.paramConfigMapRef := by
      rw [hs1]
      simp only [commitUpdates]
      simp [hcfgsc]
    have h3 : s1.encodedValuesCacheRef = some e := by
      rw [hs1]
      simp only [commitUpdates]
      rw [he, hencout]
      simp [rawMapShallowEqual_refl]
    have h4 : s1.decodedValuesCacheRef = s.decodedValuesCacheRef := by
      rw [hs1]
      simp only [commitUpdates]
      rw [hdecout]
      simp [decShallowEqual_refl]
    unfold decKeysConsistent
    rw [h2, h3, h4]
    unfold decKeysConsistent at hinv
    rw [he] at hinv
    exact hinv
  · obtain ⟨E, hEeq0, hElook⟩ := commit_enc_lookups input
      (usePreviousIfShallowEqual s.memoParamConfigMapRef input) (parse location)
      out.encodedValues out.decodedValues s
    have hE1 : s1.encodedValuesCacheRef = some E := by rw [hs1]; exact hEeq0
    have hdec1 : s1.decodedValuesCacheRef = out.decodedValues := by
      rw [hs1]
      exact commit_decoded (gldv_decoded_cases hgok)
    rw [gldv_recompute parse location _ s n hsc] at hgok
    rcases except_map_ok hgok with ⟨y, hy, hout⟩
    simp only [Prod.mk.injEq] at hout
    have hy1 := decodeLoop_enc hy
    have hydk := decodeLoop_dec_keys hy
    have hids : ∀ k, (lookupOpt s1.paramConfigMapRef.entries k).map QueryParamConfig.id =
        (lookupOpt (usePreviousIfShallowEqual s.memoParamConfigMapRef input).entries k).map
          QueryParamConfig.id := by
      intro k
      rw [hs1]
      exact commit_cfg_ids _ _ _ _ _ _ k
    have hcfgkeys : ∀ k, keyMem s1.paramConfigMapRef.entries k =
        keyMem (usePreviousIfShallowEqual s.memoParamConfigMapRef input).entries k :=
      keyMem_eq_of_map_eq hids
    have hdeckeys : ∀ k, keyMem s1.decodedValuesCacheRef.entries k =
        keyMem (usePreviousIfShallowEqual s.memoParamConfigMapRef input).entries k := by
      intro k
      rw [hdec1, hout.1]
      cases hcase : decShallowEqual s.decodedValuesCacheRef ⟨y.2.2 + 1, y.2.1⟩ with
      | false =>
        simp only [hcase, Bool.not_false, if_true]
        exact hydk k
      | true =>
        simp only [hcase, Bool.not_true, Bool.false_eq_true, if_false]
        have hlk := (decShallowEqual_iff s.decodedValuesCacheRef ⟨y.2.2 + 1, y.2.1⟩).mp hcase k
        have hkm2 : keyMem s.decodedValuesCacheRef.entries k = keyMem y.2.1 k := by
          simp only [keyMem]
          exact congrArg Option.isSome hlk
        rw [hkm2]
        exact hydk k
    have henckeys : ∀ k, keyMem E.entries k =
        keyMem (usePreviousIfShallowEqual s.memoParamConfigMapRef input).entries k := by
      intro k
      have hkm3 : keyMem E.entries k = keyMem out.encodedValues.entries k := by
        simp only [keyMem]
        exact congrArg Option.isSome (hElook k)
      rw [hkm3, hout.1]
      show keyMem y.1 k = _
      rw [hy1, keyMem_map_entries]
    unfold decKeysConsistent
    rw [hE1]
    simp only [Bool.and_eq_true]
    refine ⟨⟨?_, ?_⟩, ?_, ?_⟩
    · exact keySub_of_keyMem_eq (fun k => by rw [hdeckeys k, ← hcfgkeys k])
    · exact keySub_of_keyMem_eq (fun k => by rw [hdeckeys k, ← hcfgkeys k])
    · exact keySub_of_keyMem_eq (fun k => by rw [henckeys k, ← hcfgkeys k])
    · exact keySub_of_keyMem_eq (fun k => by rw [henckeys k, ← hcfgkeys k])
